import Mathlib

/-!
Verification development for the OTML serialization library (src/otml.h):
a tree document model (OTMLNode), a line-oriented indentation parser
(OTMLParser), a canonical emitter (OTMLEmitter) and a value codec
(otml_util::cast).  Strings are modelled as lists of characters; C++
`std::string::operator[]` at index `size()` yields the null character
(as the standard guarantees), and genuinely out-of-range accesses /
null-pointer dereferences (which are undefined behaviour in the source)
are modelled as explicit error outcomes.
-/

/-- Character strings, modelled as lists of characters. -/
abbrev Str := List Char

/-- The null character, returned by `std::string::operator[]` at index `size()`. -/
def nulChar : Char := Char.ofNat 0

/-- `line[i]` for a C++ string: the character at `i`, or the null character
at index `size()`. -/
def charAt (s : Str) (i : Nat) : Char := s.getD i nulChar

/-- The character class of C `isspace` (C locale), used by `otml_util::trim`. -/
def isCSpace (c : Char) : Bool :=
  c = ' ' || c = '\t' || c = '\n' || c = Char.ofNat 11 || c = Char.ofNat 12 || c = '\r'

/-- `otml_util::trim`: erase leading and trailing `isspace` characters. -/
def ctrim (s : Str) : Str :=
  ((s.dropWhile isCSpace).reverse.dropWhile isCSpace).reverse

/-- Split a character stream into the sequence of lines that successive
`std::getline` calls return: `"a\nb"` gives `["a","b"]`, `"a\n"` gives
`["a",""]`, `""` gives `[""]`.  Reading the last element of this list is
the read that raises the stream's eof flag. -/
def splitLines : Str → List Str
  | [] => [[]]
  | c :: cs =>
    if c = '\n' then [] :: splitLines cs
    else
      match splitLines cs with
      | l :: ls => (c :: l) :: ls
      | [] => [[c]]

/-- Number of leading space characters of a line (the scan
`while(line[spaces] == ' ') spaces++`). -/
def leadingSpaces (s : Str) : Nat := (s.takeWhile (fun c => c = ' ')).length

mutual
/-- The OTML node: tag, scalar value, diagnostic source label, null flag,
unique flag and the ordered children.  The parent back-reference of the
source is represented implicitly: the parent of a node is the node whose
children contain it. -/
inductive ONode where
  | mk (tag val src : Str) (nul uniq : Bool) (children : OForest)
/-- An ordered list of sibling nodes (`OTMLNodeList`). -/
inductive OForest where
  | nil
  | cons (head : ONode) (tail : OForest)
end

def ONode.tag : ONode → Str
  | .mk t _ _ _ _ _ => t

def ONode.val : ONode → Str
  | .mk _ v _ _ _ _ => v

def ONode.src : ONode → Str
  | .mk _ _ s _ _ _ => s

def ONode.nul : ONode → Bool
  | .mk _ _ _ nl _ _ => nl

def ONode.uniq : ONode → Bool
  | .mk _ _ _ _ u _ => u

def ONode.children : ONode → OForest
  | .mk _ _ _ _ _ cs => cs

def OForest.toList : OForest → List ONode
  | .nil => []
  | .cons h t => h :: t.toList

def OForest.ofList : List ONode → OForest
  | [] => .nil
  | h :: t => .cons h (OForest.ofList t)

@[simp] theorem OForest.toList_ofList (l : List ONode) : (OForest.ofList l).toList = l := by
  induction l with
  | nil => rfl
  | cons h t ih => simp [OForest.toList, OForest.ofList, ih]

@[simp] theorem OForest.ofList_toList : ∀ (f : OForest), OForest.ofList f.toList = f
  | .nil => rfl
  | .cons h t => by simp [OForest.toList, OForest.ofList, OForest.ofList_toList t]

/-- The children as a list. -/
def ONode.kids (n : ONode) : List ONode := n.children.toList

/-- Replace the children of a node. -/
def ONode.setKids : ONode → List ONode → ONode
  | .mk t v s nl u _, cs => .mk t v s nl u (OForest.ofList cs)

/-- `OTMLNode::setUnique`. -/
def ONode.setUnique : ONode → Bool → ONode
  | .mk t v s nl _ cs, u => .mk t v s nl u cs

/-- `OTMLNode::setNull`. -/
def ONode.setNull : ONode → Bool → ONode
  | .mk t v s _ u cs, nl => .mk t v s nl u cs

/-- `OTMLNode::setValue`. -/
def ONode.setValue : ONode → Str → ONode
  | .mk t _ s nl u cs, v => .mk t v s nl u cs

@[simp] theorem ONode.tag_mk (t v s : Str) (nl u : Bool) (cs : OForest) :
    (ONode.mk t v s nl u cs).tag = t := rfl

@[simp] theorem ONode.val_mk (t v s : Str) (nl u : Bool) (cs : OForest) :
    (ONode.mk t v s nl u cs).val = v := rfl

@[simp] theorem ONode.src_mk (t v s : Str) (nl u : Bool) (cs : OForest) :
    (ONode.mk t v s nl u cs).src = s := rfl

@[simp] theorem ONode.nul_mk (t v s : Str) (nl u : Bool) (cs : OForest) :
    (ONode.mk t v s nl u cs).nul = nl := rfl

@[simp] theorem ONode.uniq_mk (t v s : Str) (nl u : Bool) (cs : OForest) :
    (ONode.mk t v s nl u cs).uniq = u := rfl

@[simp] theorem ONode.children_mk (t v s : Str) (nl u : Bool) (cs : OForest) :
    (ONode.mk t v s nl u cs).children = cs := rfl

@[simp] theorem OForest.toList_nil : OForest.nil.toList = [] := rfl

@[simp] theorem OForest.toList_cons (h : ONode) (t : OForest) :
    (OForest.cons h t).toList = h :: t.toList := rfl

@[simp] theorem OForest.ofList_nil : OForest.ofList [] = .nil := rfl

@[simp] theorem OForest.ofList_cons (h : ONode) (t : List ONode) :
    OForest.ofList (h :: t) = .cons h (OForest.ofList t) := rfl

@[simp] theorem ONode.kids_mk (t v s : Str) (nl u : Bool) (cs : OForest) :
    (ONode.mk t v s nl u cs).kids = cs.toList := rfl

@[simp] theorem ONode.setKids_mk (t v s : Str) (nl u : Bool) (cs : OForest) (l : List ONode) :
    (ONode.mk t v s nl u cs).setKids l = ONode.mk t v s nl u (OForest.ofList l) := rfl

@[simp] theorem ONode.setUnique_mk (t v s : Str) (nl u : Bool) (cs : OForest) (b : Bool) :
    (ONode.mk t v s nl u cs).setUnique b = ONode.mk t v s nl b cs := rfl

@[simp] theorem ONode.setNull_mk (t v s : Str) (nl u : Bool) (cs : OForest) (b : Bool) :
    (ONode.mk t v s nl u cs).setNull b = ONode.mk t v s b u cs := rfl

@[simp] theorem ONode.setValue_mk (t v s : Str) (nl u : Bool) (cs : OForest) (v2 : Str) :
    (ONode.mk t v s nl u cs).setValue v2 = ONode.mk t v2 s nl u cs := rfl

/-- `OTMLNode::hasTag`. -/
def hasTag (n : ONode) : Bool := n.tag ≠ []

/-- `OTMLNode::hasValue`. -/
def hasValue (n : ONode) : Bool := n.val ≠ []

/-- `OTMLNode::get(childTag)`: first child with the given tag that is not
null, or nothing. -/
def getChild (n : ONode) (childTag : Str) : Option ONode :=
  n.kids.find? (fun c => c.tag = childTag && !c.nul)

/-- `OTMLNode::getIndex(childIndex)`. -/
def getIndex (n : ONode) (childIndex : Int) : Option ONode :=
  if childIndex < n.kids.length ∧ 0 ≤ childIndex then
    n.kids.get? childIndex.toNat
  else none

/-- Index of the first child matching the replacement condition of the
`addChild` loop: same tag as the new child, and one of the two is unique. -/
def firstMatchIdx (cs : List ONode) (newChild : ONode) : Option Nat :=
  match cs with
  | [] => none
  | c :: rest =>
    if c.tag = newChild.tag && (c.uniq || newChild.uniq) then some 0
    else (firstMatchIdx rest newChild).map (· + 1)

/-- The erase loop of `addChild` after `replaceChild`: walk the children
(`i` is the position of the iterator), removing every child that carries
the given tag other than the new child itself — the new child being the
one at position `m`, where `replaceChild` put it. -/
def purgeDup (tg : Str) (m : Nat) : List ONode → Nat → List ONode
  | [], _ => []
  | c :: rest, i =>
    if i = m then c :: purgeDup tg m rest (i + 1)
    else if c.tag = tg then purgeDup tg m rest (i + 1)
    else c :: purgeDup tg m rest (i + 1)

/-- `OTMLNode::addChild` acting on a children list, also returning the
position at which the new child ends up.  When the new child has a tag and
some existing child has the same tag with one of the two marked unique:
the new child is marked unique, `replaceChild` swaps it in at the first
such position (erase at the iterator, insert there), and the subsequent
erase loop removes every other child carrying that tag.  Otherwise the new
child is appended at the end. -/
def addChildIdx (cs : List ONode) (newChild : ONode) : List ONode × Nat :=
  if hasTag newChild then
    match firstMatchIdx cs newChild with
    | some m =>
      let nc := newChild.setUnique true
      let kept := purgeDup newChild.tag m (cs.set m nc) 0
      (kept, m - ((cs.take m).filter (fun n => n.tag = newChild.tag)).length)
    | none => (cs ++ [newChild], cs.length)
  else (cs ++ [newChild], cs.length)

/-- `OTMLNode::addChild` on a node. -/
def addChild (p : ONode) (newChild : ONode) : ONode :=
  p.setKids (addChildIdx p.kids newChild).1

/-! ### Value codec (`otml_util::cast`) -/

/-- The boolean literal table of `otml_util::cast(const std::string&, bool&)`:
the loop checks, for `i = 0..3`, first `validNames[0][i]` then
`validNames[1][i]`. -/
def castStringToBool (s : Str) : Option Bool :=
  if s = "true".data then some true
  else if s = "false".data then some false
  else if s = "yes".data then some true
  else if s = "no".data then some false
  else if s = "on".data then some true
  else if s = "off".data then some false
  else if s = "1".data then some true
  else if s = "0".data then some false
  else none

/-- `otml_util::cast(const bool&, std::string&)`. -/
def castBoolToString (b : Bool) : Str :=
  if b then "true".data else "false".data

/-- A cast failure surfaced by `OTMLNode::value<T>()` (CastError). -/
inductive CastErr where
  | castError (src : Str)
deriving DecidableEq

/-- `OTMLNode::value<bool>()`: cast the stored value through the codec,
raising a CastError (with the node's source label) on failure. -/
def valueBool (n : ONode) : Except CastErr Bool :=
  match castStringToBool n.val with
  | some b => .ok b
  | none => .error (.castError n.src)

/-- `OTMLNode::write(bool)`: stringify through the codec and store. -/
def writeBool (n : ONode) (v : Bool) : ONode :=
  n.setValue (castBoolToString v)

/-- `OTMLNode::value<T>()` for an arbitrary codec target, the codec being
abstracted as a partial conversion function. -/
def valueT {α : Type} (cast : Str → Option α) (n : ONode) : Except CastErr α :=
  match cast n.val with
  | some v => .ok v
  | none => .error (.castError n.src)

/-- `OTMLNode::valueAt(childTag, def)`: `get`, then return the default when
the child is absent (or the redundant null re-check fires), else cast. -/
def valueAtDef {α : Type} (cast : Str → Option α) (n : ONode) (childTag : Str)
    (dflt : α) : Except CastErr α :=
  match getChild n childTag with
  | some c => if !c.nul then valueT cast c else .ok dflt
  | none => .ok dflt

/-! ### Emitter (`OTMLEmitter::emitNode`) -/

/-- `2*depth` leading spaces (the loop printing `"  "` `depth` times). -/
def emitIndent (d : Nat) : Str := List.replicate (2 * d) ' '

/-- Segments of a multi-line value as produced by the character-copy loop of
`OTMLEmitter::emitNode`: one segment per emitted content line.  A newline
ends the current segment; a newline that is the last character produces no
further segment (the loop increment steps past it and exits). -/
def vsegsGo : Str → Str → List Str
  | acc, [] => [acc.reverse]
  | acc, c :: rest =>
    if c = '\n' then
      match rest with
      | [] => [acc.reverse]
      | _ :: _ => acc.reverse :: vsegsGo [] rest
    else vsegsGo (c :: acc) rest

/-- All content-line segments of a value; an empty value yields none (the
copy loop never runs). -/
def vsegs (v : Str) : List Str :=
  match v with
  | [] => []
  | _ => vsegsGo [] v

/-- The emitter's own line for a node at depth `d ≥ 0`: indentation, tag with
`:` when the node has a value, is unique or null (or `-` for tagless nodes),
then ` ~` for null, or the multi-line block (style marker chosen from the
trailing-newline shape, followed by the content lines indented one level
deeper) for a value containing a newline, or a space and the raw value.
`none` models the out-of-range read `value[value.length()-2]` that the
style selection performs when the value is exactly one newline character. -/
def emitOwn (n : ONode) (d : Nat) : Option Str :=
  let head := emitIndent d ++
    (if hasTag n then n.tag ++ (if hasValue n || n.uniq || n.nul then [':'] else [])
     else ['-'])
  if n.nul then some (head ++ " ~".data)
  else if hasValue n then
    if '\n' ∈ n.val then
      if n.val.length < 2 then none
      else
        let mark := if charAt n.val (n.val.length - 1) = '\n' &&
                       charAt n.val (n.val.length - 2) = '\n' then " |+".data
                    else if charAt n.val (n.val.length - 1) = '\n' then " |".data
                    else " |-".data
        some (head ++ mark ++
          (vsegs n.val).foldr (fun seg r => '\n' :: (emitIndent (d + 1) ++ seg) ++ r) [])
    else some (head ++ ' ' :: n.val)
  else some head

mutual

/-- `OTMLEmitter::emitNode`: the node's own line when `0 ≤ d`, then the
children at depth `d+1`. -/
def emitNode : ONode → Int → Option Str
  | n@(.mk _ _ _ _ _ cs), d => do
    let own ← if 0 ≤ d then emitOwn n d.toNat else some []
    let kids ← emitKids cs (d + 1) (decide (0 ≤ d))
    some (own ++ kids)

/-- The children loop of `OTMLEmitter::emitNode`: every child (null or not)
is emitted, preceded by a newline except for the first child of the
document root (`currentDepth >= 0 || i != 0`). -/
def emitKids : OForest → Int → Bool → Option Str
  | .nil, _, _ => some []
  | .cons c cs, d, sep => do
    let s ← emitNode c d
    let rest ← emitKids cs d true
    some ((if sep then ['\n'] else []) ++ s ++ rest)

end

/-- `OTMLDocument::emit()`: emit at depth `-1` (children only, at depth 0). -/
def emitDoc (n : ONode) : Option Str := emitNode n (-1)

example :
    emitDoc (.mk "doc".data [] [] false false
      (.cons (.mk "a".data "1".data [] false true .nil) .nil)) = some "a: 1".data := by rfl

/-! ### Parser (`OTMLParser`)

The input stream is modelled as the list of lines that `std::getline`
yields (`splitLines`), together with the stream's eof flag, which is raised
by the read of the last element of that list.  The one-line rewind
(`tellg`/`seekg`, which also clears the eof flag) restores the read line to
the front of the list.  `currentParent` is modelled as a zipper: the focused
node under construction plus a stack of suspended ancestors; a null
`currentParent`/`previousNode` is `none`, and dereferencing it is the
explicit `nullParent` error outcome. -/

/-- Parse-time outcomes that abort `OTMLParser::parse`.  The first three are
the `OTMLException`s thrown during parsing (StructuralParseError), carrying
the document source and the current line number; `nullParent` and `strOOB`
model undefined behaviour of the source (null-pointer dereference, string
access at index -1); the last two are unreachable model artifacts. -/
inductive PErr where
  | tabIndent (src : Str) (line : Nat)
  | oddIndent (src : Str) (line : Nat)
  | badDepth (src : Str) (line : Nat)
  | nullParent
  | strOOB
  | brokenInvariant
  | fuelOut
deriving DecidableEq

/-- Whether an outcome is a StructuralParseError thrown by the parser. -/
def PErr.isStructural : PErr → Bool
  | .tabIndent _ _ => true
  | .oddIndent _ _ => true
  | .badDepth _ _ => true
  | _ => false

/-- A suspended ancestor of the focused node: the ancestor's own data and
the siblings to the left and right of the child the parser is inside. -/
structure PCtx where
  shell : ONode
  left : List ONode
  right : List ONode

/-- Re-attach a finished node into its suspended parent. -/
def closeCtx (c : PCtx) (f : ONode) : ONode := c.shell.setKids (c.left ++ f :: c.right)

/-- Full parser state: the stream (remaining lines, eof flag), `currentLine`,
`currentDepth`, the document source label, `currentParent` (focus + stack)
and `previousNode` (as its index among the focus's children; it is always
the child created by the immediately preceding `parseNode`). -/
structure PState where
  remaining : List Str
  eof : Bool
  lineNo : Nat
  curDepth : Nat
  docSrc : Str
  focus : Option ONode
  stack : List PCtx
  prev : Option Nat

/-- `getNextLine` on the stream model: the next line, the rest, and whether
this read raises the eof flag. -/
def getNext : List Str → Str × List Str × Bool
  | [] => ([], [], true)
  | l :: rest => (l, rest, rest.isEmpty)

/-- `OTMLParser::getLineDepth`: count leading spaces, depth is their count
divided by two; unless `multilining` holds with the depth beyond the current
depth, a tab terminating the space scan and an odd space count are fatal
(StructuralParseError at the current line). -/
def getLineDepth (line : Str) (cur : Nat) (multilining : Bool) (src : Str) (ln : Nat) :
    Except PErr Nat :=
  let spaces := leadingSpaces line
  let depth := spaces / 2
  if !multilining || depth ≤ cur then
    if charAt line spaces = '\t' then .error (.tabIndent src ln)
    else if spaces % 2 ≠ 0 then .error (.oddIndent src ln)
    else .ok depth
  else .ok depth

/-- The block-scalar collection loop of `OTMLParser::parseNode` (fuelled;
the fuel `remaining.length + 1` always suffices).  Each iteration reads a
line: a line deeper than `currentDepth` contributes its content after the
fixed `(currentDepth+1)*2`-character prefix plus a newline; a non-blank
line at or above `currentDepth` rewinds the stream one line, decrements the
line counter and stops; a blank line contributes a bare newline.  The loop
also stops once the read that produced the processed line raised eof. -/
def collectBlockF (src : Str) (cur : Nat) :
    Nat → List Str → Nat → Str → Except PErr (Str × List Str × Nat × Bool)
  | 0, _, _, _ => .error .fuelOut
  | fuel + 1, rem, ln, acc =>
    let g := getNext rem
    match getLineDepth g.1 cur true src (ln + 1) with
    | .error e => .error e
    | .ok depth =>
      if cur < depth then
        let acc2 := acc ++ g.1.drop (2 * (cur + 1)) ++ ['\n']
        if g.2.2 then .ok (acc2, g.2.1, ln + 1, true)
        else collectBlockF src cur fuel g.2.1 (ln + 1) acc2
      else if ctrim g.1 ≠ [] then .ok (acc, g.1 :: g.2.1, ln, false)
      else
        let acc2 := acc ++ ['\n']
        if g.2.2 then .ok (acc2, g.2.1, ln + 1, true)
        else collectBlockF src cur fuel g.2.1 (ln + 1) acc2

/-- The trailing-newline stripping loop
`while(multiLineData[--lastPos] == '\n') multiLineData.erase(lastPos, 1)`:
removes trailing newlines from the end; when every character has been
erased (or the text was empty) the next read is at index -1, out of
range — modelled as `none`. -/
def stripTrailNL (s : Str) : Option Str :=
  let r := s.reverse.dropWhile (fun c => c = '\n')
  if r.isEmpty then none else some r.reverse

/-- Decimal rendering of the line number (`safeCast<std::string>(int)`). -/
def natStr (n : Nat) : Str := (Nat.repr n).data

/-- Node construction and attachment at the end of `OTMLParser::parseNode`:
the node carries the tag, the unique flag exactly when the line contained a
colon, the source label `"<doc source>:<line>"`, and either the null flag
(for value `~`) or the value; it is attached to `currentParent` (a null
`currentParent` is dereferenced — undefined behaviour) and recorded as
`previousNode`. -/
def finishNode (tag value : Str) (dotsPos : Option Nat) (nodeLine : Nat) (s : PState) :
    Except PErr PState :=
  let node := ONode.mk tag (if value = "~".data then [] else value)
    (s.docSrc ++ ':' :: natStr nodeLine) (value = "~".data) dotsPos.isSome .nil
  match s.focus with
  | none => .error .nullParent
  | some f =>
    let r := addChildIdx f.kids node
    .ok { s with focus := some (f.setKids r.1), prev := some r.2 }

/-- The tag/value split of `OTMLParser::parseNode` on the trimmed line
(with the final `trim(tag); trim(value)` applied): a leading dash makes an
anonymous entry whose value is the trimmed remainder; otherwise the first
colon, if any, separates tag from value; otherwise the whole line is the
tag. -/
def splitTagVal (data : Str) : Str × Str :=
  if data ≠ [] ∧ charAt data 0 = '-' then ([], ctrim (ctrim (data.drop 1)))
  else
    match data.findIdx? (fun c => c = ':') with
    | some p => (ctrim (data.take p),
        ctrim (if p + 1 < data.length then data.drop (p + 1) else []))
    | none => (ctrim data, [])

/-- The trailing-newline policy: styles `|` and `|-` run the stripping loop
(out of range when the captured text is all newlines), `|` then re-appends
one newline; `|+` keeps the captured text unmodified. -/
def applyBlockPolicy (value : Str) (acc : Str) : Except PErr Str :=
  if value = "|".data ∨ value = "|-".data then
    match stripTrailNL acc with
    | none => .error .strOOB
    | some t => .ok (if value = "|".data then t ++ ['\n'] else t)
  else .ok acc

/-- `OTMLParser::parseNode`: split the trimmed line into tag and value,
collect a literal block when the value is exactly one of the three block
markers and apply its trailing-newline policy, then build and attach the
node. -/
def parseNode (data : Str) (s : PState) : Except PErr PState :=
  let tag := (splitTagVal data).1
  let value := (splitTagVal data).2
  let dotsPos := data.findIdx? (fun c => c = ':')
  let nodeLine := s.lineNo
  if value = "|".data ∨ value = "|-".data ∨ value = "|+".data then
    match collectBlockF s.docSrc s.curDepth (s.remaining.length + 1) s.remaining s.lineNo [] with
    | .error e => .error e
    | .ok (acc, rem2, ln2, eof2) =>
      match applyBlockPolicy value acc with
      | .error e => .error e
      | .ok v =>
        finishNode tag v dotsPos nodeLine { s with remaining := rem2, lineNo := ln2, eof := eof2 }
  else finishNode tag value dotsPos nodeLine s

/-- One step of `currentParent = currentParent->parent()`, iterated:
the parent of the document root is null, and taking the parent of null is
undefined behaviour. -/
def ascendSteps : Nat → PState → Except PErr PState
  | 0, s => .ok s
  | k + 1, s =>
    match s.focus with
    | none => .error .nullParent
    | some f =>
      match s.stack with
      | [] => ascendSteps k { s with focus := none }
      | c :: rest => ascendSteps k { s with focus := some (closeCtx c f), stack := rest }

/-- `currentParent = previousNode` on the descend branch: when no node has
been created yet this sets `currentParent` to null; otherwise the parser
moves inside the child recorded by the last `parseNode` (always a valid
index of the focus — the fallback is an unreachable model artifact).  The
suspended parent is stored with its child list cleared: the siblings live
in the context's `left`/`right` fields and are restored on ascent. -/
def descendPrev (s : PState) : Except PErr PState :=
  match s.prev with
  | none => .ok { s with focus := none }
  | some i =>
    match s.focus with
    | none => .error .brokenInvariant
    | some f =>
      match f.kids.get? i with
      | none => .error .brokenInvariant
      | some ch =>
        .ok { s with focus := some ch,
                     stack := ⟨f.setKids [], f.kids.take i, f.kids.drop (i + 1)⟩ :: s.stack }

/-- The depth-transition resolution of `OTMLParser::parseLine` against
`currentDepth`: descend / ascend / sibling / StructuralParseError. -/
def dTrans (depth : Nat) (s : PState) : Except PErr PState :=
  if depth = s.curDepth + 1 then descendPrev s
  else if depth < s.curDepth then ascendSteps (s.curDepth - depth) s
  else if depth ≠ s.curDepth then .error (.badDepth s.docSrc s.lineNo)
  else .ok s

/-- `OTMLParser::parseLine`: compute the depth (with indentation checks),
skip blank lines and `//` comments, resolve the depth transition against
`currentDepth`, set `currentDepth`, and parse the node body. -/
def parseLine (line : Str) (s : PState) : Except PErr PState :=
  match getLineDepth line s.curDepth false s.docSrc s.lineNo with
  | .error e => .error e
  | .ok depth =>
    let t := ctrim line
    if t = [] then .ok s
    else if t.take 2 = "//".data then .ok s
    else
      match dTrans depth s with
      | .error e => .error e
      | .ok s2 => parseNode t { s2 with curDepth := depth }

/-- The main loop of `OTMLParser::parse`:
`while(!in.eof()) parseLine(getNextLine())` (fuelled; `parseMeasure` below
always suffices). -/
def parseSteps : Nat → PState → Except PErr PState
  | 0, _ => .error .fuelOut
  | fuel + 1, s =>
    if s.eof then .ok s
    else
      let g := getNext s.remaining
      match parseLine g.1 { s with remaining := g.2.1, eof := g.2.2, lineNo := s.lineNo + 1 } with
      | .error e => .error e
      | .ok s2 => parseSteps fuel s2

/-- Sufficient fuel for `parseSteps`: each iteration consumes at least one
line of the stream (the rewound line was itself consumed first). -/
def parseMeasure (s : PState) : Nat := s.remaining.length + 2

/-- The initial parser state of `OTMLDocument::parse(istream&, source)`:
a fresh document root (no tag, only the source label set), depth 0, line 0,
no previous node. -/
def initPState (input src : Str) : PState :=
  { remaining := splitLines input, eof := false, lineNo := 0, curDepth := 0,
    docSrc := src, focus := some (ONode.mk [] [] src false false .nil),
    stack := [], prev := none }

/-- Reassemble the document root from the zipper at end of parse. -/
def closeAll : Option ONode → List PCtx → Option ONode
  | none, _ => none
  | some f, [] => some f
  | some f, c :: rest => closeAll (some (closeCtx c f)) rest

/-- The main loop with its canonical sufficient fuel. -/
def parseRun (s : PState) : Except PErr PState := parseSteps (parseMeasure s) s

/-- `OTMLDocument::parse(istream&, source)`: run the line loop on the
split stream and return the document root. -/
def parseDoc (input src : Str) : Except PErr ONode :=
  match parseRun (initPState input src) with
  | .error e => .error e
  | .ok s =>
    match closeAll s.focus s.stack with
    | some root => .ok root
    | none => .error .brokenInvariant

example :
    parseDoc "a: 1".data "d".data =
      .ok (.mk [] [] "d".data false false
        (.cons (.mk "a".data "1".data "d:1".data false true .nil) .nil)) := by rfl

example : parseDoc "  x".data "d".data = .error .nullParent := by rfl

example : parseDoc "a: |".data "d".data = .error .strOOB := by rfl

example :
    parseDoc "a: |\n  x\n  y".data "d".data =
      .ok (.mk [] [] "d".data false false
        (.cons (.mk "a".data "x\ny\n".data "d:1".data false true .nil) .nil)) := by rfl

/-! ### Claim C6: the boolean codec -/

/-- C6: string-to-boolean conversion succeeds exactly on the literal table
(`true`/`yes`/`on`/`1` give true, `false`/`no`/`off`/`0` give false, by
case-sensitive exact match); any other token makes the typed accessor
`value<bool>()` raise a CastError; and boolean-to-string conversion renders
exactly `"true"`/`"false"`, so `write(true)` stores the string `"true"`. -/
theorem C6_bool_codec :
    (∀ s : Str, s = "true".data ∨ s = "yes".data ∨ s = "on".data ∨ s = "1".data →
      castStringToBool s = some true) ∧
    (∀ s : Str, s = "false".data ∨ s = "no".data ∨ s = "off".data ∨ s = "0".data →
      castStringToBool s = some false) ∧
    (∀ n : ONode,
      n.val ∉ ["true".data, "yes".data, "on".data, "1".data,
               "false".data, "no".data, "off".data, "0".data] →
      valueBool n = .error (.castError n.src)) ∧
    (∀ b : Bool, castBoolToString b = if b then "true".data else "false".data) ∧
    (∀ n : ONode, (writeBool n true).val = "true".data) := by
  refine ⟨?_, ?_, ?_, ?_, ?_⟩
  · rintro s (rfl | rfl | rfl | rfl) <;> rfl
  · rintro s (rfl | rfl | rfl | rfl) <;> rfl
  · intro n h
    obtain ⟨t, v, s, nl, u, cs⟩ := n
    simp only [List.mem_cons, List.mem_singleton, not_or, ONode.val] at h
    obtain ⟨h1, h2, h3, h4, h5, h6, h7, h8, -⟩ := h
    simp [valueBool, castStringToBool, h1, h2, h3, h4, h5, h6, h7, h8]
  · intro b; rfl
  · intro n; cases n; rfl

/-- C6 witness: `"yes"` casts to true, `"0"` casts to false, value text
`"maybe"` raises a CastError, and `write(true)` stores `"true"`. -/
theorem C6_bool_codec_witness :
    castStringToBool "yes".data = some true ∧
    castStringToBool "0".data = some false ∧
    valueBool (.mk "a".data "maybe".data "s".data false false .nil) =
      .error (.castError "s".data) ∧
    (writeBool (.mk "a".data [] [] false false .nil) true).val = "true".data := by
  refine ⟨C6_bool_codec.1 "yes".data (by simp), C6_bool_codec.2.1 "0".data (by simp),
    C6_bool_codec.2.2.1 _ (by decide), C6_bool_codec.2.2.2.2 _⟩

/-! ### Claim C7: default-valued accessor -/

/-- C7: `valueAt(tag, def)` returns the default when no child with the tag
exists or every child with the tag is explicitly null; when a non-null
child with the tag exists (the first such child is what `get` returns), a
successful cast of its value is returned and a cast failure still raises a
CastError carrying that child's source label (it is not converted into the
default). -/
theorem C7_valueAt_default {α : Type} (cast : Str → Option α) (n : ONode)
    (t : Str) (dflt : α) :
    ((∀ c ∈ n.kids, c.tag = t → c.nul = true) → valueAtDef cast n t dflt = .ok dflt) ∧
    (∀ c, getChild n t = some c →
      (∀ v, cast c.val = some v → valueAtDef cast n t dflt = .ok v) ∧
      (cast c.val = none →
        valueAtDef cast n t dflt = .error (.castError c.src))) := by
  constructor
  · intro h
    have hnone : getChild n t = none := by
      apply List.find?_eq_none.mpr
      intro c hc
      simp only [Bool.and_eq_true, Bool.not_eq_true', decide_eq_true_eq]
      intro hcontra
      exact absurd ((h c hc hcontra.1).symm.trans hcontra.2) (by decide)
    simp [valueAtDef, hnone]
  · intro c hc
    have hnul : c.nul = false := by
      have := List.find?_some hc
      simp only [Bool.and_eq_true, Bool.not_eq_true', decide_eq_true_eq] at this
      exact this.2
    obtain ⟨t2, v2, s2, nl2, u2, cs2⟩ := c
    simp only [ONode.nul] at hnul
    subst hnul
    constructor
    · intro v hv
      simp only [ONode.val] at hv
      simp [valueAtDef, hc, valueT, hv]
    · intro hv
      simp only [ONode.val] at hv
      simp [valueAtDef, hc, valueT, hv]

/-- C7 witness: with children `[missing]`: a null child tagged `nullTag`
and a child tagged `b` holding the uncastable value `"x"`, the default is
returned for both `missingTag` and `nullTag`, while the accessor on `b`
still raises. -/
theorem C7_valueAt_default_witness :
    valueAtDef castStringToBool
      (.mk "doc".data [] [] false false
        (.cons (.mk "nullTag".data [] "s1".data true false .nil)
          (.cons (.mk "b".data "x".data "s2".data false false .nil) .nil)))
      "missingTag".data true = .ok true ∧
    valueAtDef castStringToBool
      (.mk "doc".data [] [] false false
        (.cons (.mk "nullTag".data [] "s1".data true false .nil)
          (.cons (.mk "b".data "x".data "s2".data false false .nil) .nil)))
      "nullTag".data true = .ok true ∧
    valueAtDef castStringToBool
      (.mk "doc".data [] [] false false
        (.cons (.mk "nullTag".data [] "s1".data true false .nil)
          (.cons (.mk "b".data "x".data "s2".data false false .nil) .nil)))
      "b".data true = .error (.castError "s2".data) := by
  refine ⟨(C7_valueAt_default castStringToBool _ _ true).1 (by decide),
    (C7_valueAt_default castStringToBool _ _ true).1 (by decide),
    ((C7_valueAt_default castStringToBool _ _ true).2
      (.mk "b".data "x".data "s2".data false false .nil) (by rfl)).2 (by rfl)⟩

/-! ### Claim C5: indentation validation -/

/-- C5: outside literal block-scalar collection (and inside it for lines
whose depth does not exceed `currentDepth`), a tab terminating the
leading-space scan or an odd leading-space count raises a
StructuralParseError carrying the current line number (and document
source); lines inside block-scalar collection whose depth strictly exceeds
`currentDepth` are exempt from both checks. -/
theorem C5_indent_validation (line src : Str) (cur ln : Nat) (multilining : Bool) :
    (¬(multilining = true ∧ cur < leadingSpaces line / 2) →
      (charAt line (leadingSpaces line) = '\t' →
        getLineDepth line cur multilining src ln = .error (.tabIndent src ln)) ∧
      (charAt line (leadingSpaces line) ≠ '\t' → leadingSpaces line % 2 = 1 →
        getLineDepth line cur multilining src ln = .error (.oddIndent src ln)) ∧
      (charAt line (leadingSpaces line) ≠ '\t' → leadingSpaces line % 2 = 0 →
        getLineDepth line cur multilining src ln = .ok (leadingSpaces line / 2))) ∧
    (multilining = true ∧ cur < leadingSpaces line / 2 →
      getLineDepth line cur multilining src ln = .ok (leadingSpaces line / 2)) := by
  constructor
  · intro h
    have hcond : (!multilining || leadingSpaces line / 2 ≤ cur) = true := by
      cases multilining
      · simp
      · simp only [Bool.not_true, Bool.false_or, decide_eq_true_eq]
        simp only [true_and] at h
        omega
    refine ⟨?_, ?_, ?_⟩
    · intro htab
      simp [getLineDepth, hcond, htab]
    · intro htab hodd
      simp [getLineDepth, hcond, htab, hodd]
    · intro htab heven
      simp [getLineDepth, hcond, htab, heven]
  · intro ⟨hm, hlt⟩
    have hcond : (!multilining || leadingSpaces line / 2 ≤ cur) = false := by
      subst hm
      simp only [Bool.not_true, Bool.false_or, decide_eq_false_iff_not]
      omega
    simp [getLineDepth, hcond]

/-- C5 witness: the line `" x"` (one leading space) raises the
odd-indentation StructuralParseError at the current line outside
multilining, the line `"\t x"` raises the tab error, and the line
`"    x"` at depth 2 inside block collection at `currentDepth` 0 is
exempt. -/
theorem C5_indent_validation_witness :
    getLineDepth " x".data 0 false "d".data 7 = .error (.oddIndent "d".data 7) ∧
    getLineDepth "\tx".data 0 false "d".data 7 = .error (.tabIndent "d".data 7) ∧
    getLineDepth "    x".data 0 true "d".data 7 = .ok 2 := by
  refine ⟨((C5_indent_validation " x".data "d".data 0 7 false).1 (by decide)).2.1
      (by decide) (by decide),
    ((C5_indent_validation "\tx".data "d".data 0 7 false).1 (by decide)).1 (by decide),
    (C5_indent_validation "    x".data "d".data 0 7 true).2 (by decide)⟩

/-! ### Claim C4: depth-transition resolution -/

/-- C4: for a non-blank, non-comment line of computed depth `d` against the
parser state's `currentDepth`: `d = currentDepth+1` descends
(`currentParent = previousNode`), `d < currentDepth` ascends exactly
`currentDepth - d` times by following parent references, `d = currentDepth`
leaves the parent unchanged, and any other relation (`d > currentDepth+1`)
raises the StructuralParseError carrying the document source and the
current line number; in the non-error cases `currentDepth` is set to `d`
before the node body is parsed. -/
theorem C4_depth_transition (line : Str) (s : PState) (d : Nat)
    (hd : getLineDepth line s.curDepth false s.docSrc s.lineNo = .ok d)
    (hne : ctrim line ≠ [])
    (hnc : (ctrim line).take 2 ≠ "//".data) :
    (d = s.curDepth + 1 → parseLine line s =
      match descendPrev s with
      | .error e => .error e
      | .ok s2 => parseNode (ctrim line) { s2 with curDepth := d }) ∧
    (d < s.curDepth → parseLine line s =
      match ascendSteps (s.curDepth - d) s with
      | .error e => .error e
      | .ok s2 => parseNode (ctrim line) { s2 with curDepth := d }) ∧
    (d = s.curDepth → parseLine line s = parseNode (ctrim line) { s with curDepth := d }) ∧
    (s.curDepth + 1 < d → parseLine line s = .error (.badDepth s.docSrc s.lineNo)) := by
  refine ⟨?_, ?_, ?_, ?_⟩
  · intro hcase
    simp [parseLine, dTrans, hd, hne, hnc, hcase]
  · intro hcase
    have h1 : d ≠ s.curDepth + 1 := by omega
    simp [parseLine, dTrans, hd, hne, hnc, h1, hcase]
  · intro hcase
    have h1 : d ≠ s.curDepth + 1 := by omega
    have h2 : ¬(d < s.curDepth) := by omega
    simp [parseLine, dTrans, hd, hne, hnc, h1, h2, hcase]
  · intro hcase
    have h1 : d ≠ s.curDepth + 1 := by omega
    have h2 : ¬(d < s.curDepth) := by omega
    have h3 : d ≠ s.curDepth := by omega
    simp [parseLine, dTrans, hd, hne, hnc, h1, h2, h3]

/-- C4 witness: the document `"a\n    b"` (a root node followed by a line
two levels deeper) aborts with the depth StructuralParseError at line 2, by
the fourth case of the transition theorem applied to the concrete parser
state reached after the first line. -/
theorem C4_depth_transition_witness :
    parseLine "    b".data
      { remaining := [], eof := true, lineNo := 2, curDepth := 0, docSrc := "d".data,
        focus := some (.mk [] [] "d".data false false
          (.cons (.mk "a".data [] "d:1".data false false .nil) .nil)),
        stack := [], prev := some 0 } = .error (.badDepth "d".data 2) ∧
    parseDoc "a\n    b".data "d".data = .error (.badDepth "d".data 2) := by
  refine ⟨(C4_depth_transition "    b".data _ 2 (by rfl) (by decide)
    (by decide)).2.2.2 (by decide), by rfl⟩

/-! ### Claim C9: the trailing-newline stripping loop is not total -/

/-- C9: for the input `"a: |"` (a block marker with nothing after it) the
block-collection loop accumulates exactly one newline — text consisting
solely of newline characters — and the stripping loop for styles `|` and
`|-` erases every character and then reads the string at position -1; in
this total embedding the out-of-range access is the explicit `strOOB`
outcome, which the whole parse returns. -/
theorem C9_strip_oob :
    collectBlockF "d".data 0 1 [] 1 [] = .ok (['\n'], [], 2, true) ∧
    (['\n'] : Str).all (fun c => c = '\n') = true ∧
    stripTrailNL ['\n'] = none ∧
    parseDoc "a: |".data "d".data = .error .strOOB := by
  exact ⟨rfl, rfl, rfl, rfl⟩

/-! ### Claim C10: descending before any node exists dereferences null -/

/-- C10: when the first non-blank, non-comment line is indented one level
(input `"  x"`), the descend branch runs with `previousNode` still null and
sets `currentParent` to null; `parseNode` then dereferences the null
`currentParent` — the parse ends in the null-dereference outcome, which is
not a StructuralParseError. -/
theorem C10_null_parent_descend :
    (∃ s2, descendPrev { initPState "  x".data "d".data with
        remaining := [], eof := true, lineNo := 1 } = .ok s2 ∧ s2.focus = none) ∧
    parseDoc "  x".data "d".data = .error .nullParent ∧
    PErr.nullParent.isStructural = false := by
  exact ⟨⟨_, rfl, rfl⟩, rfl, rfl⟩


/-! ### Claim C2: `addChild` replacement / collapse semantics -/

theorem purgeDup_gt (tg : Str) (m : Nat) :
    ∀ (l : List ONode) (k : Nat), m < k →
      purgeDup tg m l k = l.filter (fun n => n.tag ≠ tg) := by
  intro l
  induction l with
  | nil => intro k h; rfl
  | cons c rest ih =>
    intro k h
    have hk : k ≠ m := by omega
    by_cases hc : c.tag = tg <;>
      simp [purgeDup, List.filter_cons, hk, hc, ih (k + 1) (by omega)]

theorem purgeDup_shift (tg : Str) :
    ∀ (l : List ONode) (m k : Nat),
      purgeDup tg (m + 1) l (k + 1) = purgeDup tg m l k := by
  intro l
  induction l with
  | nil => intro m k; rfl
  | cons c rest ih =>
    intro m k
    have he : (k + 1 = m + 1) ↔ (k = m) := by omega
    by_cases hk : k = m <;> by_cases hc : c.tag = tg <;>
      simp [purgeDup, he, hk, hc, ih]

/-- What survives the erase loop on `cs.set m nc2` when keeping position `m`
and every position with a different tag. -/
theorem purgeDup_set (tg : Str) (nc2 : ONode) :
    ∀ (cs : List ONode) (m : Nat), m < cs.length →
      purgeDup tg m (cs.set m nc2) 0
        = (cs.take m).filter (fun n => n.tag ≠ tg)
          ++ nc2 :: (cs.drop (m + 1)).filter (fun n => n.tag ≠ tg) := by
  intro cs
  induction cs with
  | nil => intro m h; simp at h
  | cons c rest ih =>
    intro m h
    match m with
    | 0 =>
      simp [List.set, purgeDup, purgeDup_gt tg 0 rest 1 (by omega)]
    | m + 1 =>
      have hlen : m < rest.length := by simpa using h
      obtain ⟨ct, cv, csrc, cn, cu, cc⟩ := c
      by_cases hc : ct = tg <;>
        simp [List.set_cons_succ, purgeDup, purgeDup_shift, hc,
          List.filter_cons, ih m hlen]

theorem length_filter_tag_add (l : List ONode) (tg : Str) :
    ((l.filter (fun n => n.tag = tg)).length
      + (l.filter (fun n => n.tag ≠ tg)).length) = l.length := by
  induction l with
  | nil => rfl
  | cons c rest ih =>
    simp only [ne_eq, decide_not] at ih ⊢
    by_cases hc : c.tag = tg <;> simp [List.filter_cons, hc] <;> omega

theorem firstMatchIdx_lt (nc : ONode) :
    ∀ (cs : List ONode) (m : Nat), firstMatchIdx cs nc = some m → m < cs.length := by
  intro cs
  induction cs with
  | nil => intro m h; simp [firstMatchIdx] at h
  | cons c rest ih =>
    intro m h
    simp only [firstMatchIdx] at h
    by_cases hc : (c.tag = nc.tag && (c.uniq || nc.uniq)) = true
    · rw [if_pos hc] at h
      have hm : m = 0 := by
        have := Option.some.inj h
        omega
      simp [hm, List.length_cons]
    · rw [if_neg hc] at h
      simp only [Option.map_eq_some'] at h
      obtain ⟨m2, hm2, rfl⟩ := h
      have := ih m2 hm2
      simp only [List.length_cons]
      omega

theorem filter_ne_then_eq (l : List ONode) (tg : Str) :
    (l.filter (fun n => n.tag ≠ tg)).filter (fun n => n.tag = tg) = [] := by
  rw [List.filter_eq_nil_iff]
  intro a ha
  have := (List.mem_filter.mp ha).2
  simp only [decide_eq_true_eq] at this ⊢
  exact this

theorem get?_append_middle {α : Type} (A : List α) (x : α) (B : List α) :
    (A ++ x :: B).get? A.length = some x := by
  induction A with
  | nil => rfl
  | cons a A ih => simpa using ih

@[simp] theorem setUnique_tag (n : ONode) (b : Bool) : (n.setUnique b).tag = n.tag := by
  cases n; rfl

/-- C2 (amended): for every node `P` and tagged `newChild`: when some
existing child shares the tag with one of the two marked unique, `addChild`
marks `newChild` unique, replaces the first matching sibling in place and
removes every other child sharing the tag, so that exactly one child with
that tag remains, holding `newChild`'s value — its position is the position
`m` of the first match **minus the number of earlier same-tag siblings**
(all of which are removed); equivalently, the surviving children are the
differently-tagged ones in order with `newChild` standing where the first
match stood.  Otherwise `addChild` appends `newChild` at the end,
preserving document order (attachment to `P`'s child list is what realizes
the parent reference in this embedding). -/
theorem C2_addChild_amended (p : ONode) (nc : ONode) (hT : hasTag nc = true) :
    (∀ m, firstMatchIdx p.kids nc = some m →
      (addChild p nc).kids
          = (p.kids.take m).filter (fun n => n.tag ≠ nc.tag)
            ++ (nc.setUnique true) :: ((p.kids.drop (m + 1)).filter (fun n => n.tag ≠ nc.tag)) ∧
      ((addChild p nc).kids.filter (fun n => n.tag = nc.tag)) = [nc.setUnique true] ∧
      (addChildIdx p.kids nc).2
          = m - ((p.kids.take m).filter (fun n => n.tag = nc.tag)).length ∧
      (addChildIdx p.kids nc).2
          = ((p.kids.take m).filter (fun n => n.tag ≠ nc.tag)).length ∧
      (addChild p nc).kids.get? (addChildIdx p.kids nc).2 = some (nc.setUnique true)) ∧
    (firstMatchIdx p.kids nc = none →
      (addChild p nc).kids = p.kids ++ [nc] ∧
      (addChildIdx p.kids nc).2 = p.kids.length) := by
  constructor
  · intro m hm
    have hlt : m < p.kids.length := firstMatchIdx_lt nc p.kids m hm
    have hkids : (addChild p nc).kids = (addChildIdx p.kids nc).1 := by
      cases p; simp [addChild]
    have h1 : (addChildIdx p.kids nc).1
        = (p.kids.take m).filter (fun n => n.tag ≠ nc.tag)
          ++ (nc.setUnique true) :: ((p.kids.drop (m + 1)).filter (fun n => n.tag ≠ nc.tag)) := by
      simp only [addChildIdx, hT, hm, if_true]
      exact purgeDup_set nc.tag (nc.setUnique true) p.kids m hlt
    have hidx : (addChildIdx p.kids nc).2
        = m - ((p.kids.take m).filter (fun n => n.tag = nc.tag)).length := by
      simp only [addChildIdx, hT, hm, if_true]
    have htake : (p.kids.take m).length = m := by
      simp [List.length_take]
      omega
    have hsum := length_filter_tag_add (p.kids.take m) nc.tag
    refine ⟨by rw [hkids, h1], ?_, hidx, by omega, ?_⟩
    · rw [hkids, h1]
      simp only [List.filter_append, List.filter_cons, filter_ne_then_eq]
      simp
    · rw [hkids, h1, hidx, show m - ((p.kids.take m).filter
        (fun n => n.tag = nc.tag)).length
          = ((p.kids.take m).filter (fun n => n.tag ≠ nc.tag)).length by omega]
      exact get?_append_middle _ _ _
  · intro hm
    have hkids : (addChild p nc).kids = (addChildIdx p.kids nc).1 := by
      cases p; simp [addChild]
    constructor
    · rw [hkids]
      simp only [addChildIdx, hT, hm, if_true]
    · simp only [addChildIdx, hT, hm, if_true]

/-- C2 counterexample: with children `[a(non-unique), b, a(unique)]` and a
non-unique new child tagged `a`, the first matching sibling (per the
`addChild` loop condition) is at ordinal 2, yet after the replacement and
the erase loop the sole surviving `a` child sits at ordinal 1 of the
resulting two-element list (and at ordinal 0 under the reading "first
sibling sharing the tag") — not "at the position of the first previous
match" as the claim states. -/
theorem C2_addChild_counterexample :
    firstMatchIdx
      [ .mk "a".data "0".data [] false false .nil,
        .mk "b".data [] [] false false .nil,
        .mk "a".data "2".data [] false true .nil ]
      (.mk "a".data "9".data [] false false .nil) = some 2 ∧
    (addChildIdx
      [ .mk "a".data "0".data [] false false .nil,
        .mk "b".data [] [] false false .nil,
        .mk "a".data "2".data [] false true .nil ]
      (.mk "a".data "9".data [] false false .nil)).2 = 1 ∧
    (addChildIdx
      [ .mk "a".data "0".data [] false false .nil,
        .mk "b".data [] [] false false .nil,
        .mk "a".data "2".data [] false true .nil ]
      (.mk "a".data "9".data [] false false .nil)).1
      = [ .mk "b".data [] [] false false .nil,
          .mk "a".data "9".data [] false true .nil ] ∧
    (1 : Nat) ≠ 2 ∧ (1 : Nat) ≠ 0 := by
  exact ⟨rfl, rfl, rfl, by decide, by decide⟩

/-- C2 witness for the amended theorem, at the counterexample input: the
replacement branch fires at match index 2 and the surviving child sits at
the filtered-prefix position. -/
theorem C2_addChild_amended_witness :
    hasTag (ONode.mk "a".data "9".data [] false false .nil) = true ∧
    (addChild
      (.mk "p".data [] [] false false
        (.cons (.mk "a".data "0".data [] false false .nil)
          (.cons (.mk "b".data [] [] false false .nil)
            (.cons (.mk "a".data "2".data [] false true .nil) .nil))))
      (.mk "a".data "9".data [] false false .nil)).kids.filter
        (fun n => n.tag = (ONode.mk "a".data "9".data [] false false .nil).tag)
      = [(ONode.mk "a".data "9".data [] false false .nil).setUnique true] ∧
    (addChildIdx
      (ONode.mk "p".data [] [] false false
        (.cons (.mk "a".data "0".data [] false false .nil)
          (.cons (.mk "b".data [] [] false false .nil)
            (.cons (.mk "a".data "2".data [] false true .nil) .nil)))).kids
      (.mk "a".data "9".data [] false false .nil)).2
      = (((ONode.mk "p".data [] [] false false
        (.cons (.mk "a".data "0".data [] false false .nil)
          (.cons (.mk "b".data [] [] false false .nil)
            (.cons (.mk "a".data "2".data [] false true .nil) .nil)))).kids.take 2).filter
        (fun n => n.tag ≠ (ONode.mk "a".data "9".data [] false false .nil).tag)).length := by
  refine ⟨by decide, ?_, ?_⟩
  · exact ((C2_addChild_amended _ _ (by decide)).1 2 (by rfl)).2.1
  · exact ((C2_addChild_amended _ _ (by decide)).1 2 (by rfl)).2.2.2.1

/-! ### Claim C8: the emitter's children loop -/

/-- Emissions of a list of nodes at a given depth, in order. -/
def emitList : List ONode → Int → Option (List Str)
  | [], _ => some []
  | c :: cs, d => do
    let s ← emitNode c d
    let rest ← emitList cs d
    some (s :: rest)

/-- Join emitted blocks with single newline separators (newline between
blocks, none before the first and none after the last). -/
def joinLines : List Str → Str
  | [] => []
  | s :: rest => s ++ rest.foldr (fun x r => ('\n' :: x) ++ r) []

theorem emitKids_concat : ∀ (f : OForest) (d : Int) (ss : List Str),
    emitList f.toList d = some ss →
    emitKids f d true = some (ss.foldr (fun x r => ('\n' :: x) ++ r) [])
  | .nil, d, ss => by
    intro h
    simp only [OForest.toList_nil, emitList] at h
    cases h
    rfl
  | .cons c t, d, ss => by
    intro h
    simp only [OForest.toList_cons, emitList, Option.bind_eq_bind,
      Option.bind_eq_some, Option.some.injEq] at h
    obtain ⟨s, hc, rest, ht, hss⟩ := h
    subst hss
    have ih := emitKids_concat t d rest ht
    simp [emitKids, hc, ih]

theorem emitKids_root : ∀ (f : OForest) (d : Int) (ss : List Str),
    emitList f.toList d = some ss →
    emitKids f d false = some (joinLines ss)
  | .nil, d, ss => by
    intro h
    simp only [OForest.toList_nil, emitList] at h
    cases h
    rfl
  | .cons c t, d, ss => by
    intro h
    simp only [OForest.toList_cons, emitList, Option.bind_eq_bind,
      Option.bind_eq_some, Option.some.injEq] at h
    obtain ⟨s, hc, rest, ht, hss⟩ := h
    subst hss
    have hcat := emitKids_concat t d rest ht
    simp [emitKids, hc, hcat, joinLines]

/-- C8 (amended): after the node's own line the emitter recursively emits
**every** child — null children included, a null child contributing its own
`tag: ~` line — at depth `d+1`, each child block preceded by one newline;
at the document root the output is exactly the child blocks joined by
single newlines, so no newline is appended after the final child. -/
theorem C8_emitter_children_amended :
    (∀ (r : ONode) (ss : List Str), emitList r.kids 0 = some ss →
      emitDoc r = some (joinLines ss)) ∧
    (∀ (n : ONode) (d : Nat) (own : Str) (ss : List Str),
      emitOwn n d = some own → emitList n.kids (d + 1) = some ss →
      emitNode n d = some (own ++ ss.foldr (fun x r => ('\n' :: x) ++ r) [])) ∧
    (∀ (n : ONode) (d : Nat), n.nul = true →
      emitOwn n d = some (emitIndent d ++
        (if hasTag n then n.tag ++ [':'] else ['-']) ++ " ~".data)) := by
  refine ⟨?_, ?_, ?_⟩
  · intro r ss h
    obtain ⟨t, v, s, nl, u, cs⟩ := r
    have hk := emitKids_root cs 0 ss (by simpa using h)
    simp only [emitDoc, emitNode]
    norm_num
    simpa using hk
  · intro n d own ss hown hss
    obtain ⟨t, v, s, nl, u, cs⟩ := n
    have hk := emitKids_concat cs (↑d + 1) ss (by simpa using hss)
    have h0 : (0 : Int) ≤ (d : Int) := by exact_mod_cast Nat.zero_le d
    simp only [emitNode, ONode.children_mk, if_pos h0, decide_eq_true h0,
      Int.toNat_natCast, Option.bind_eq_bind]
    rw [hown, hk]
    rfl
  · intro n d hnul
    obtain ⟨t, v, s, nl, u, cs⟩ := n
    simp only [ONode.nul_mk] at hnul
    subst hnul
    simp [emitOwn, hasValue]

/-- C8 counterexample: a document whose only child is a null node tagged
`a` emits the non-empty text `"a: ~"` — the null child does produce output,
where the claim (null children produce no output) predicts an empty
emission. -/
theorem C8_emitter_counterexample :
    emitDoc (.mk "doc".data [] [] false false
      (.cons (.mk "a".data [] [] true false .nil) .nil)) = some "a: ~".data ∧
    "a: ~".data ≠ ([] : Str) := by
  exact ⟨rfl, by decide⟩

/-- C8 witness: a document with a scalar child and a null child emits
`"a: 1\nb: ~"`, by the amended theorem applied at concrete inputs. -/
theorem C8_emitter_children_amended_witness :
    emitDoc (.mk "doc".data [] [] false false
      (.cons (.mk "a".data "1".data [] false true .nil)
        (.cons (.mk "b".data [] [] true false .nil) .nil)))
      = some (joinLines ["a: 1".data, "b: ~".data]) := by
  exact C8_emitter_children_amended.1 _ ["a: 1".data, "b: ~".data] (by rfl)

/-! ### Claim C3: literal block scalars -/

/-- Depth of a line: leading-space count divided by two. -/
def lineDepth (l : Str) : Nat := leadingSpaces l / 2

/-- The text accumulated from a run of contributing block lines: each line
with the fixed `(currentDepth+1)*2`-character prefix dropped, followed by a
newline. -/
def blockText (c : Nat) (body : List Str) : Str :=
  body.foldr (fun l r => l.drop (2 * (c + 1)) ++ '\n' :: r) []

theorem getLineDepth_deep (l : Str) (c : Nat) (src : Str) (ln : Nat)
    (h : c < lineDepth l) :
    getLineDepth l c true src ln = .ok (lineDepth l) := by
  have hnot : ¬(leadingSpaces l / 2 ≤ c) := by
    simp only [lineDepth] at h
    omega
  simp [getLineDepth, lineDepth, hnot]

theorem getLineDepth_ok_shallow (l : Str) (c : Nat) (src : Str) (ln : Nat)
    (hdep : lineDepth l ≤ c)
    (htab : charAt l (leadingSpaces l) ≠ '\t')
    (heven : leadingSpaces l % 2 = 0) :
    getLineDepth l c true src ln = .ok (lineDepth l) := by
  have hle : leadingSpaces l / 2 ≤ c := hdep
  simp [getLineDepth, lineDepth, hle, htab, heven]

/-- A line acceptable as the block terminator: at most the current depth,
valid indentation, non-blank. -/
def stopLine (c : Nat) (l : Str) : Prop :=
  lineDepth l ≤ c ∧ charAt l (leadingSpaces l) ≠ '\t' ∧
    leadingSpaces l % 2 = 0 ∧ ctrim l ≠ []

theorem collectBlock_stop (src : Str) (c : Nat) :
    ∀ (body : List Str) (stop : Str) (rest : List Str) (ln : Nat) (acc : Str)
      (fuel : Nat),
      (∀ l ∈ body, c < lineDepth l) → stopLine c stop →
      body.length < fuel →
      collectBlockF src c fuel (body ++ stop :: rest) ln acc
        = .ok (acc ++ blockText c body, stop :: rest, ln + body.length, false) := by
  intro body
  induction body with
  | nil =>
    intro stop rest ln acc fuel hdeep hstop hfuel
    obtain ⟨h1, h2, h3, h4⟩ := hstop
    match fuel, hfuel with
    | f + 1, _ =>
      simp only [List.nil_append, collectBlockF, getNext,
        getLineDepth_ok_shallow stop c src (ln + 1) h1 h2 h3]
      have : ¬(c < lineDepth stop) := by omega
      simp [this, h4, blockText]
  | cons l body ih =>
    intro stop rest ln acc fuel hdeep hstop hfuel
    match fuel, hfuel with
    | f + 1, hf =>
      have hl : c < lineDepth l := hdeep l (by simp)
      have hne : ((body ++ stop :: rest).isEmpty) = false := by
        cases body <;> simp
      simp only [List.cons_append, collectBlockF, getNext,
        getLineDepth_deep l c src (ln + 1) hl, hl, if_true, hne]
      have ihh := ih stop rest (ln + 1)
        (acc ++ l.drop (2 * (c + 1)) ++ ['\n']) f
        (fun x hx => hdeep x (by simp [hx])) hstop (by simpa using hf)
      simp only [Bool.false_eq_true, if_false, ihh, blockText,
        Except.ok.injEq, Prod.mk.injEq, List.length_cons]
      refine ⟨by simp, trivial, by omega, trivial⟩

theorem collectBlock_eos (src : Str) (c : Nat) :
    ∀ (body : List Str) (ln : Nat) (acc : Str) (fuel : Nat),
      (∀ l ∈ body, c < lineDepth l) → body ≠ [] →
      body.length < fuel →
      collectBlockF src c fuel body ln acc
        = .ok (acc ++ blockText c body, [], ln + body.length, true) := by
  intro body
  induction body with
  | nil => intro ln acc fuel _ hne _; exact absurd rfl hne
  | cons l body ih =>
    intro ln acc fuel hdeep _ hfuel
    match fuel, hfuel with
    | f + 1, hf =>
      have hl : c < lineDepth l := hdeep l (by simp)
      match body with
      | [] =>
        simp only [collectBlockF, getNext, getLineDepth_deep l c src (ln + 1) hl,
          hl, if_true]
        simp [blockText]
      | l2 :: body2 =>
        simp only [collectBlockF, getNext, getLineDepth_deep l c src (ln + 1) hl,
          hl, if_true, List.isEmpty_cons]
        have ihh := ih (ln + 1) (acc ++ l.drop (2 * (c + 1)) ++ ['\n']) f
          (fun x hx => hdeep x (by simp [hx])) (by simp) (by simpa using hf)
        simp only [Bool.false_eq_true, if_false, ihh, blockText,
          Except.ok.injEq, Prod.mk.injEq, List.length_cons]
        refine ⟨by simp, trivial, by omega, trivial⟩

theorem dropWhile_replicate_append (p : Char → Bool) (ch : Char) (hp : p ch = true)
    (l : Str) : ∀ (k : Nat), (List.replicate k ch ++ l).dropWhile p = l.dropWhile p := by
  intro k
  induction k with
  | zero => rfl
  | succ k ih => simp [List.replicate_succ, List.dropWhile_cons, hp, ih]

/-- The trailing-newline stripping loop on a text made of a block `u` that
does not end in a newline, followed by `k` trailing newlines: it removes
exactly the `k` newlines and terminates at `u`'s last character. -/
theorem stripTrailNL_trailing (u : Str) (hne : u ≠ []) (hlast : u.getLast? ≠ some '\n')
    (k : Nat) : stripTrailNL (u ++ List.replicate k '\n') = some u := by
  have hdrop : (u ++ List.replicate k '\n').reverse.dropWhile (fun c => c = '\n')
      = u.reverse := by
    rw [List.reverse_append, List.reverse_replicate,
      dropWhile_replicate_append (fun c => c = '\n') '\n' (by simp) u.reverse k]
    cases hrev : u.reverse with
    | nil => simp [List.reverse_eq_nil_iff.mp hrev] at hne
    | cons h t =>
      have hh : u.getLast? = some h := by
        rw [List.getLast?_eq_head?_reverse, hrev]
        rfl
      have : ¬(h = '\n') := by
        intro hcontra
        rw [hcontra] at hh
        exact hlast hh
      simp [List.dropWhile_cons, this]
  simp only [stripTrailNL, hdrop]
  have : u.reverse.isEmpty = false := by
    cases hrev : u.reverse with
    | nil => simp [List.reverse_eq_nil_iff.mp hrev] at hne
    | cons h t => rfl
  simp [this]

/-- C3: after a line whose value is exactly a block marker, the parser
accumulates each subsequent line of depth strictly greater than
`currentDepth` (fixed `(currentDepth+1)*2`-character prefix dropped, plus a
newline), stopping with a one-line rewind (line counter unchanged overall)
at the first non-blank line of depth at most `currentDepth`, or at end of
stream; the trailing-newline policy then leaves exactly one trailing
newline for `|`, strips all trailing newlines for `|-` and keeps the
captured text for `|+`; in particular the value `"a\nb\n"` emitted with
style `|` reparses to itself, `"a\nb"` emitted with `|-` reparses to
itself, and `"a\nb\n\n"` emitted with `|+` reparses to itself. -/
theorem C3_block_scalar :
    (∀ (src : Str) (c : Nat) (body : List Str) (stop : Str) (rest : List Str)
       (ln fuel : Nat),
      (∀ l ∈ body, c < lineDepth l) → stopLine c stop → body.length < fuel →
      collectBlockF src c fuel (body ++ stop :: rest) ln []
        = .ok (blockText c body, stop :: rest, ln + body.length, false)) ∧
    (∀ (src : Str) (c : Nat) (body : List Str) (ln fuel : Nat),
      (∀ l ∈ body, c < lineDepth l) → body ≠ [] → body.length < fuel →
      collectBlockF src c fuel body ln []
        = .ok (blockText c body, [], ln + body.length, true)) ∧
    (∀ (u : Str) (k : Nat), u ≠ [] → u.getLast? ≠ some '\n' →
      stripTrailNL (u ++ List.replicate k '\n') = some u) ∧
    (emitDoc (.mk "doc".data [] [] false false
        (.cons (.mk "x".data "a\nb\n".data [] false true .nil) .nil))
      = some "x: |\n  a\n  b".data ∧
     parseDoc "x: |\n  a\n  b".data "d".data
      = .ok (.mk [] [] "d".data false false
          (.cons (.mk "x".data "a\nb\n".data "d:1".data false true .nil) .nil))) ∧
    (emitDoc (.mk "doc".data [] [] false false
        (.cons (.mk "x".data "a\nb".data [] false true .nil) .nil))
      = some "x: |-\n  a\n  b".data ∧
     parseDoc "x: |-\n  a\n  b".data "d".data
      = .ok (.mk [] [] "d".data false false
          (.cons (.mk "x".data "a\nb".data "d:1".data false true .nil) .nil))) ∧
    (emitDoc (.mk "doc".data [] [] false false
        (.cons (.mk "x".data "a\nb\n\n".data [] false true .nil) .nil))
      = some "x: |+\n  a\n  b\n  ".data ∧
     parseDoc "x: |+\n  a\n  b\n  ".data "d".data
      = .ok (.mk [] [] "d".data false false
          (.cons (.mk "x".data "a\nb\n\n".data "d:1".data false true .nil) .nil))) := by
  refine ⟨?_, ?_, ?_, ⟨rfl, rfl⟩, ⟨rfl, rfl⟩, ⟨rfl, rfl⟩⟩
  · intro src c body stop rest ln fuel hdeep hstop hfuel
    have := collectBlock_stop src c body stop rest ln [] fuel hdeep hstop hfuel
    simpa using this
  · intro src c body ln fuel hdeep hne hfuel
    have := collectBlock_eos src c body ln [] fuel hdeep hne hfuel
    simpa using this
  · intro u k hne hlast
    exact stripTrailNL_trailing u hne hlast k

/-- C3 witness: a two-line block body stopped by a sibling line, an
end-of-stream block, and the stripping policy at a concrete block text. -/
theorem C3_block_scalar_witness :
    collectBlockF "d".data 0 3 ["  a".data, "b".data] 1 []
      = .ok ("a\n".data, ["b".data], 2, false) ∧
    collectBlockF "d".data 0 3 ["  a".data, "  b".data] 1 []
      = .ok ("a\nb\n".data, [], 3, true) ∧
    stripTrailNL ("a\nb".data ++ List.replicate 2 '\n') = some "a\nb".data := by
  refine ⟨?_, ?_, ?_⟩
  · have := C3_block_scalar.1 "d".data 0 ["  a".data] "b".data [] 1 3
      (by decide) (by exact ⟨by decide, by decide, by decide, by decide⟩) (by decide)
    simpa using this
  · have := C3_block_scalar.2.1 "d".data 0 ["  a".data, "  b".data] 1 3
      (by decide) (by decide) (by decide)
    simpa using this
  · exact C3_block_scalar.2.2.1 "a\nb".data 2 (by decide) (by decide)

/-! ### Fuel stability of the main loop -/

theorem getNext_rest_le (rem : List Str) : (getNext rem).2.1.length ≤ rem.length := by
  cases rem <;> simp [getNext]

theorem collectBlockF_nil (src : Str) (c : Nat) (f : Nat) (ln : Nat) (acc : Str) :
    collectBlockF src c (f + 1) [] ln acc = .ok (acc ++ ['\n'], [], ln + 1, true) := by
  simp [collectBlockF, getNext, getLineDepth, leadingSpaces, charAt, nulChar, ctrim]

theorem collectBlockF_rem_le (src : Str) (c : Nat) :
    ∀ (fuel : Nat) (rem : List Str) (ln : Nat) (acc : Str)
      (res : Str × List Str × Nat × Bool),
      collectBlockF src c fuel rem ln acc = .ok res → res.2.1.length ≤ rem.length := by
  intro fuel
  induction fuel with
  | zero => intro rem ln acc res h; exact absurd h (by simp [collectBlockF])
  | succ f ih =>
    intro rem ln acc res h
    match rem with
    | [] =>
      rw [collectBlockF_nil] at h
      cases h
      simp
    | l :: rest =>
      simp only [collectBlockF, getNext] at h
      split at h
      · exact absurd h (by simp)
      · split at h
        · split at h
          · cases h
            simp
          · have := ih rest (ln + 1) _ res h
            simp only [List.length_cons]
            omega
        · split at h
          · cases h
            simp
          · split at h
            · cases h
              simp
            · have := ih rest (ln + 1) _ res h
              simp only [List.length_cons]
              omega

theorem ascendSteps_frame : ∀ (k : Nat) (s s2 : PState), ascendSteps k s = .ok s2 →
    s2.remaining = s.remaining ∧ s2.eof = s.eof ∧ s2.lineNo = s.lineNo ∧
      s2.curDepth = s.curDepth ∧ s2.docSrc = s.docSrc ∧ s2.prev = s.prev := by
  intro k
  induction k with
  | zero =>
    intro s s2 h
    simp only [ascendSteps] at h
    cases h
    exact ⟨rfl, rfl, rfl, rfl, rfl, rfl⟩
  | succ k ih =>
    intro s s2 h
    simp only [ascendSteps] at h
    split at h
    · exact absurd h (by simp)
    · split at h
      · have := ih _ _ h
        simpa using this
      · have := ih _ _ h
        simpa using this

theorem descendPrev_frame (s s2 : PState) (h : descendPrev s = .ok s2) :
    s2.remaining = s.remaining ∧ s2.eof = s.eof ∧ s2.lineNo = s.lineNo ∧
      s2.curDepth = s.curDepth ∧ s2.docSrc = s.docSrc ∧ s2.prev = s.prev := by
  simp only [descendPrev] at h
  split at h
  · cases h; exact ⟨rfl, rfl, rfl, rfl, rfl, rfl⟩
  · split at h
    · exact absurd h (by simp)
    · split at h
      · exact absurd h (by simp)
      · cases h; exact ⟨rfl, rfl, rfl, rfl, rfl, rfl⟩

theorem dTrans_frame (d : Nat) (s s2 : PState) (h : dTrans d s = .ok s2) :
    s2.remaining = s.remaining ∧ s2.eof = s.eof ∧ s2.lineNo = s.lineNo ∧
      s2.curDepth = s.curDepth ∧ s2.docSrc = s.docSrc := by
  simp only [dTrans] at h
  split at h
  · have := descendPrev_frame s s2 h
    exact ⟨this.1, this.2.1, this.2.2.1, this.2.2.2.1, this.2.2.2.2.1⟩
  · split at h
    · have := ascendSteps_frame _ s s2 h
      exact ⟨this.1, this.2.1, this.2.2.1, this.2.2.2.1, this.2.2.2.2.1⟩
    · split at h
      · exact absurd h (by simp)
      · cases h; exact ⟨rfl, rfl, rfl, rfl, rfl⟩

theorem finishNode_rem (tag value : Str) (dotsPos : Option Nat) (nodeLine : Nat)
    (s s2 : PState) (h : finishNode tag value dotsPos nodeLine s = .ok s2) :
    s2.remaining = s.remaining ∧ s2.eof = s.eof := by
  simp only [finishNode] at h
  split at h
  · exact absurd h (by simp)
  · cases h; exact ⟨rfl, rfl⟩

theorem parseNode_rem_le (data : Str) (s s2 : PState) (h : parseNode data s = .ok s2) :
    s2.remaining.length ≤ s.remaining.length := by
  simp only [parseNode] at h
  split at h
  · split at h
    · exact absurd h (by simp)
    · rename_i acc rem2 ln2 eof2 heq
      split at h
      · exact absurd h (by simp)
      · have h1 := finishNode_rem _ _ _ _ _ _ h
        have h2 := collectBlockF_rem_le _ _ _ _ _ _ _ heq
        simp only [h1.1]
        simpa using h2
  · have h1 := finishNode_rem _ _ _ _ _ _ h
    simp [h1.1]

theorem parseLine_rem_le (l : Str) (s s2 : PState) (h : parseLine l s = .ok s2) :
    s2.remaining.length ≤ s.remaining.length := by
  simp only [parseLine] at h
  split at h
  · exact absurd h (by simp)
  · split at h
    · cases h; exact le_refl _
    · split at h
      · cases h; exact le_refl _
      · split at h
        · exact absurd h (by simp)
        · rename_i s3 heq
          have h1 := dTrans_frame _ _ _ heq
          have h2 := parseNode_rem_le _ _ _ h
          simp only [h1.1] at h2
          exact h2

theorem parseLine_nil (s : PState) : parseLine [] s = .ok s := by
  simp [parseLine, getLineDepth, leadingSpaces, charAt, ctrim, nulChar]

theorem parseSteps_eof (s : PState) (h : s.eof = true) :
    ∀ (k : Nat), 1 ≤ k → parseSteps k s = .ok s := by
  intro k hk
  match k, hk with
  | g + 1, _ => simp [parseSteps, h]

theorem parseSteps_succ_ok (k : Nat) (s s2 : PState) (he : s.eof = false)
    (hpl : parseLine (getNext s.remaining).1
      { s with remaining := (getNext s.remaining).2.1,
               eof := (getNext s.remaining).2.2, lineNo := s.lineNo + 1 } = .ok s2) :
    parseSteps (k + 1) s = parseSteps k s2 := by
  simp [parseSteps, he, hpl]

theorem parseSteps_succ_err (k : Nat) (s : PState) (e : PErr) (he : s.eof = false)
    (hpl : parseLine (getNext s.remaining).1
      { s with remaining := (getNext s.remaining).2.1,
               eof := (getNext s.remaining).2.2, lineNo := s.lineNo + 1 } = .error e) :
    parseSteps (k + 1) s = .error e := by
  simp [parseSteps, he, hpl]

theorem parseSteps_stable (f : Nat) : ∀ (s : PState), parseMeasure s ≤ f →
    parseSteps f s = parseRun s := by
  induction f using Nat.strong_induction_on with
  | _ f ih =>
    intro s hf
    match f, hf with
    | g + 1, hf =>
      cases he : s.eof with
      | true =>
        rw [parseSteps_eof s he (g + 1) (by omega), parseRun,
          parseSteps_eof s he _ (by simp [parseMeasure])]
      | false =>
        have hm : parseMeasure s = s.remaining.length + 1 + 1 := rfl
        cases hpl : parseLine (getNext s.remaining).1
            { s with remaining := (getNext s.remaining).2.1,
                     eof := (getNext s.remaining).2.2, lineNo := s.lineNo + 1 } with
        | error e =>
          rw [parseSteps_succ_err g s e he hpl, parseRun, hm,
            parseSteps_succ_err (s.remaining.length + 1) s e he hpl]
        | ok s2 =>
          rw [parseSteps_succ_ok g s s2 he hpl, parseRun, hm,
            parseSteps_succ_ok (s.remaining.length + 1) s s2 he hpl]
          match hrem : s.remaining with
          | [] =>
            rw [hrem] at hpl
            simp only [getNext] at hpl
            rw [parseLine_nil] at hpl
            cases hpl
            rw [parseSteps_eof _ rfl g (by simp [parseMeasure, hrem] at hf; omega),
              parseSteps_eof _ rfl _ (by simp)]
          | l :: rest =>
            have hlen : s2.remaining.length ≤ rest.length := by
              have h2 := parseLine_rem_le _ _ _ hpl
              simp only [hrem, getNext] at h2
              exact h2
            simp only [parseMeasure, hrem, List.length_cons] at hf
            rw [ih g (by omega) s2 (by simp only [parseMeasure]; omega),
              ih ((l :: rest).length + 1)
                (by simp only [List.length_cons]; omega) s2
                (by simp only [parseMeasure, List.length_cons]; omega)]

theorem parseRun_eof (s : PState) (h : s.eof = true) : parseRun s = .ok s :=
  parseSteps_eof s h (parseMeasure s) (by simp [parseMeasure])

theorem parseRun_step_ok (s s2 : PState) (he : s.eof = false)
    (hpl : parseLine (getNext s.remaining).1
      { s with remaining := (getNext s.remaining).2.1,
               eof := (getNext s.remaining).2.2, lineNo := s.lineNo + 1 } = .ok s2) :
    parseRun s = parseRun s2 := by
  have hm : parseMeasure s = s.remaining.length + 1 + 1 := rfl
  rw [parseRun, hm, parseSteps_succ_ok (s.remaining.length + 1) s s2 he hpl]
  match hrem : s.remaining with
  | [] =>
    rw [hrem] at hpl
    simp only [getNext] at hpl
    rw [parseLine_nil] at hpl
    cases hpl
    rw [parseSteps_eof _ rfl _ (by simp), parseRun_eof _ rfl]
  | l :: rest =>
    have hlen : s2.remaining.length ≤ rest.length := by
      have h2 := parseLine_rem_le _ _ _ hpl
      simp only [hrem, getNext] at h2
      exact h2
    exact parseSteps_stable ((l :: rest).length + 1) s2
      (by simp only [parseMeasure, List.length_cons]; omega)

theorem parseRun_step_err (s : PState) (e : PErr) (he : s.eof = false)
    (hpl : parseLine (getNext s.remaining).1
      { s with remaining := (getNext s.remaining).2.1,
               eof := (getNext s.remaining).2.2, lineNo := s.lineNo + 1 } = .error e) :
    parseRun s = .error e := by
  have hm : parseMeasure s = s.remaining.length + 1 + 1 := rfl
  rw [parseRun, hm, parseSteps_succ_err (s.remaining.length + 1) s e he hpl]

/-! ### Round-trip machinery (claim C1)

The remainder of the development characterises, node by node, the text the
emitter produces and the tree the parser rebuilds from it.  `rimg` is the
exact reparse image of a node (same tag, value and null flag; the source
label and the unique flag are recomputed the way `parseNode` does), and
`EmittableN` is the class of trees whose emission is parsed back exactly to
that image. -/

/-- Whether the parsed-back line of a node contains a colon (`dotsPos` of
`OTMLParser::parseNode`): a tagged node prints `tag:` whenever it has a
value, is unique or null; an anonymous (`-`) node only exposes a colon
through an inline value containing one. -/
def imgUniqC (t v : Str) (nl u : Bool) : Bool :=
  if t ≠ [] then decide (v ≠ []) || u || nl
  else !nl && decide (v ≠ []) && !decide ('\n' ∈ v) && decide (':' ∈ v)

/-- Number of emitted content lines a value contributes (zero unless the
emitter chooses the multi-line style). -/
def vcount (v : Str) : Nat := if '\n' ∈ v then (vsegs v).length else 0

mutual
/-- Number of lines a node's emission occupies. -/
def lineCount : ONode → Nat
  | .mk _ v _ _ _ cs => 1 + vcount v + lineCountF cs

/-- Number of lines a forest's emission occupies. -/
def lineCountF : OForest → Nat
  | .nil => 0
  | .cons c cs => lineCount c + lineCountF cs
end

mutual
/-- The reparse image of a node whose own line is line `ln` of the stream:
tag, value and null flag survive; the source label becomes
`<doc source>:<line>` and the unique flag is recomputed from the colon
test. -/
def rimg (sr : Str) : Nat → ONode → ONode
  | ln, .mk t v _ nl u cs =>
    .mk t v (sr ++ ':' :: natStr ln) nl (imgUniqC t v nl u)
      (rimgF sr (ln + 1 + vcount v) cs)

/-- The reparse image of a forest whose first own line is line `ln`. -/
def rimgF (sr : Str) : Nat → OForest → OForest
  | _, .nil => .nil
  | ln, .cons c cs => .cons (rimg sr ln c) (rimgF sr (ln + lineCount c) cs)
end

/-- `rimgF` on a plain list of siblings. -/
def rimgL (sr : Str) : Nat → List ONode → List ONode
  | _, [] => []
  | ln, c :: cs => rimg sr ln c :: rimgL sr (ln + lineCount c) cs

/-- The style marker the emitter picks for a multi-line value. -/
def markerOf (v : Str) : Str :=
  if charAt v (v.length - 1) = '\n' && charAt v (v.length - 2) = '\n' then "|+".data
  else if charAt v (v.length - 1) = '\n' then "|".data
  else "|-".data

/-- A node's own emitted line with the indentation stripped. -/
def bodyOf (n : ONode) : Str :=
  let head := if hasTag n then
      n.tag ++ (if hasValue n || n.uniq || n.nul then [':'] else [])
    else ['-']
  if n.nul then head ++ " ~".data
  else if hasValue n then
    if '\n' ∈ n.val then head ++ ' ' :: markerOf n.val
    else head ++ ' ' :: n.val
  else head

/-- Whether the emitter renders the node's value as a literal block. -/
def isMulti (n : ONode) : Bool := !n.nul && hasValue n && decide ('\n' ∈ n.val)

/-- The emitted content lines of a multi-line value at node depth `d`. -/
def vlinesOf (v : Str) (d : Nat) : List Str :=
  (vsegs v).map (fun seg => emitIndent (d + 1) ++ seg)

mutual
/-- The lines of a node's emission at depth `d`: its own line, the content
lines of a block value, then the children's lines one level deeper. -/
def treeLines : ONode → Nat → List Str
  | n@(.mk _ _ _ _ _ cs), d =>
    (emitIndent d ++ bodyOf n) ::
      ((if isMulti n then vlinesOf n.val d else []) ++ forestLines cs (d + 1))

/-- The lines of a forest's emission, all nodes at depth `d`. -/
def forestLines : OForest → Nat → List Str
  | .nil, _ => []
  | .cons c cs, d => treeLines c d ++ forestLines cs d
end

/-- A tag the emitter/parser round-trip keeps intact: either empty (an
anonymous `-` entry) or starting and ending with non-space characters,
containing no colon and no newline, not starting with a dash and not
opening a `//` comment. -/
def tagOK (t : Str) : Bool :=
  decide (t = []) ||
    (!isCSpace (charAt t 0) && !isCSpace (charAt t (t.length - 1)) &&
      !decide (':' ∈ t) && !decide ('\n' ∈ t) &&
      !decide (charAt t 0 = '-') && !decide (t.take 2 = "//".data))

/-- A (non-null) value the round trip keeps intact: empty, or a multi-line
text of at least two characters, or a single-line token with clean ends
that is not one of the reserved words `~`, `|`, `|-`, `|+`. -/
def valOK (v : Str) : Bool :=
  if v = [] then true
  else if '\n' ∈ v then decide (2 ≤ v.length)
  else !isCSpace (charAt v 0) && !isCSpace (charAt v (v.length - 1)) &&
    !decide (v = "~".data) && !decide (v = "|".data) &&
    !decide (v = "|-".data) && !decide (v = "|+".data)

/-- Two siblings whose reparse would trigger the replace/erase branch of
`addChild`: same non-empty tag, and at least one of the two reparsed nodes
carries the unique flag. -/
def clashes (a b : ONode) : Bool :=
  decide (a.tag = b.tag) && decide (a.tag ≠ []) &&
    (imgUniqC a.tag a.val a.nul a.uniq || imgUniqC b.tag b.val b.nul b.uniq)

/-- No pair of siblings clashes, so the reparse appends children in order. -/
def sibsOK : List ONode → Bool
  | [] => true
  | c :: rest => rest.all (fun b => !clashes c b) && sibsOK rest

mutual
/-- Trees whose emission parses back to the exact reparse image: clean tag,
clean value (empty value demanded of null nodes), no children under a
multi-line value, no clashing siblings, recursively. -/
def EmittableN : ONode → Bool
  | .mk t v _ nl _ cs =>
    tagOK t && (if nl then decide (v = []) else valOK v) &&
    (if '\n' ∈ v then (match cs with | .nil => true | .cons _ _ => false) else true) &&
    sibsOK cs.toList && EmittableF cs

/-- All trees of the forest are emittable. -/
def EmittableF : OForest → Bool
  | .nil => true
  | .cons c cs => EmittableN c && EmittableF cs
end

mutual
/-- Structural equivalence of the claim: same tag, value, null flag, and
children pairwise structurally equivalent (same child order and count);
source labels and unique flags are not part of it. -/
def StructEq : ONode → ONode → Prop
  | .mk t1 v1 _ n1 _ c1, .mk t2 v2 _ n2 _ c2 =>
    t1 = t2 ∧ v1 = v2 ∧ n1 = n2 ∧ ForestEq c1 c2

/-- Structural equivalence of forests: same length, pointwise. -/
def ForestEq : OForest → OForest → Prop
  | .nil, .nil => True
  | .cons a as, .cons b bs => StructEq a b ∧ ForestEq as bs
  | .nil, .cons _ _ => False
  | .cons _ _, .nil => False
end

/-- The parser state is suspended somewhere at or below depth `d`, and the
ascent the next depth-`d` line would perform lands on focus `F` with
suspended stack `S`. -/
def ready (F : ONode) (S : List PCtx) (d : Nat) (s : PState) : Prop :=
  d ≤ s.curDepth ∧
    ascendSteps (s.curDepth - d) s = .ok { s with focus := some F, stack := S }

/-- The upcoming lines, if any, start with a valid block-termination line
for current depth `d`. -/
def stopOK (d : Nat) : List Str → Prop
  | [] => True
  | l :: _ => stopLine d l

/-! ### Line-level facts -/

theorem splitLines_noNL : ∀ (u : Str), '\n' ∉ u → splitLines u = [u]
  | [], _ => rfl
  | c :: cs, h => by
    have hc : ¬(c = '\n') := fun hh => h (by simp [hh])
    have ih := splitLines_noNL cs (fun hm => h (by simp [hm]))
    simp [splitLines, hc, ih]

theorem splitLines_append : ∀ (u w : Str), '\n' ∉ u →
    splitLines (u ++ '\n' :: w) = u :: splitLines w
  | [], w, _ => by simp [splitLines]
  | c :: cs, w, h => by
    have hc : ¬(c = '\n') := fun hh => h (by simp [hh])
    have ih := splitLines_append cs w (fun hm => h (by simp [hm]))
    simp [splitLines, hc, ih]

theorem joinLines_cons_cons (l m : Str) (ms : List Str) :
    joinLines (l :: m :: ms) = l ++ '\n' :: joinLines (m :: ms) := by
  simp [joinLines]

theorem splitLines_joinLines : ∀ (ls : List Str), ls ≠ [] →
    (∀ l ∈ ls, '\n' ∉ l) → splitLines (joinLines ls) = ls
  | [], h, _ => absurd rfl h
  | [l], _, h => by
    have := splitLines_noNL l (h l (by simp))
    simp [joinLines, this]
  | l :: m :: ms, _, h => by
    rw [joinLines_cons_cons,
      splitLines_append l (joinLines (m :: ms)) (h l (by simp)),
      splitLines_joinLines (m :: ms) (by simp) (fun x hx => h x (by simp [hx]))]

theorem leadingSpaces_space_cons (w : Str) :
    leadingSpaces (' ' :: w) = leadingSpaces w + 1 := by
  simp [leadingSpaces, List.takeWhile_cons]

theorem leadingSpaces_replicate (k : Nat) (u : Str) :
    leadingSpaces (List.replicate k ' ' ++ u) = k + leadingSpaces u := by
  induction k with
  | zero => simp
  | succ k ih =>
    rw [List.replicate_succ, List.cons_append, leadingSpaces_space_cons, ih]
    omega

theorem leadingSpaces_cons (c : Char) (u : Str) (h : ¬(c = ' ')) :
    leadingSpaces (c :: u) = 0 := by
  simp [leadingSpaces, List.takeWhile_cons, h]

theorem charAt_cons_zero (c : Char) (u : Str) : charAt (c :: u) 0 = c := rfl

theorem charAt_append_length (A u : Str) :
    charAt (A ++ u) A.length = charAt u 0 := by
  simp [charAt, List.getD_eq_getElem?_getD,
    List.getElem?_append_right (Nat.le_refl A.length)]

theorem emitIndent_length (d : Nat) : (emitIndent d).length = 2 * d := by
  simp [emitIndent]

theorem ctrim_replicate_space (k : Nat) (u : Str) :
    ctrim (List.replicate k ' ' ++ u) = ctrim u := by
  simp [ctrim, dropWhile_replicate_append isCSpace ' ' (by decide) u k]

theorem dropWhile_eq_self_of_head (p : Char → Bool) (u : Str)
    (h : p (charAt u 0) = false) (hne : u ≠ []) : u.dropWhile p = u := by
  match u, hne with
  | c :: rest, _ =>
    exact List.dropWhile_cons_of_neg (by simpa [charAt] using h)

theorem charAt_reverse_zero (u : Str) (hne : u ≠ []) :
    charAt u.reverse 0 = charAt u (u.length - 1) := by
  match u, hne with
  | c :: rest, _ =>
    simp only [charAt, List.getD_eq_getElem?_getD]
    rw [show ((c :: rest).reverse)[0]? = (c :: rest).reverse.head? by
      cases hrev : (c :: rest).reverse with
      | nil => simp at hrev
      | cons b B => simp]
    rw [List.head?_reverse]
    rw [List.getLast?_eq_getElem?]

theorem ctrim_eq_self (u : Str) (hne : u ≠ [])
    (h0 : isCSpace (charAt u 0) = false)
    (h1 : isCSpace (charAt u (u.length - 1)) = false) : ctrim u = u := by
  have hd : u.dropWhile isCSpace = u := dropWhile_eq_self_of_head isCSpace u h0 hne
  have hrne : u.reverse ≠ [] := by
    intro hcontra
    exact hne (by simpa using congrArg List.reverse hcontra)
  have hd2 : u.reverse.dropWhile isCSpace = u.reverse :=
    dropWhile_eq_self_of_head isCSpace u.reverse
      (by rw [charAt_reverse_zero u hne]; exact h1) hrne
  simp [ctrim, hd, hd2]

theorem ctrim_space_cons (v : Str) : ctrim (' ' :: v) = ctrim v := by
  have : (' ' :: v).dropWhile isCSpace = v.dropWhile isCSpace := by
    rw [List.dropWhile_cons_of_pos (by decide)]
  simp [ctrim, this]

/-- Append a final newline unless the text already ends in one. -/
def ensureNL (r : Str) : Str :=
  if r.getLast? = some '\n' then r else r ++ ['\n']

theorem ensureNL_cons_cons (c x : Char) (xs : Str) :
    ensureNL (c :: x :: xs) = c :: ensureNL (x :: xs) := by
  simp only [ensureNL, List.getLast?_cons_cons]
  split <;> simp

theorem vsegsGo_cons_nl (acc : Str) (x : Char) (xs : Str) :
    vsegsGo acc ('\n' :: x :: xs) = acc.reverse :: vsegsGo [] (x :: xs) := rfl

theorem vsegsGo_cons_ne (acc : Str) (c : Char) (r : Str) (hc : ¬(c = '\n')) :
    vsegsGo acc (c :: r) = vsegsGo (c :: acc) r := by
  simp [vsegsGo, hc]

theorem vsegsGo_flat : ∀ (r acc : Str),
    (vsegsGo acc r).foldr (fun seg t => seg ++ '\n' :: t) [] =
      acc.reverse ++ ensureNL r
  | [], acc => by simp [vsegsGo, ensureNL]
  | c :: rest, acc => by
    by_cases hc : c = '\n'
    · subst hc
      match rest with
      | [] => simp [vsegsGo, ensureNL]
      | x :: xs =>
        rw [vsegsGo_cons_nl, List.foldr_cons, vsegsGo_flat (x :: xs) [],
          ensureNL_cons_cons]
        simp
    · rw [vsegsGo_cons_ne acc c rest hc, vsegsGo_flat rest (c :: acc),
        List.reverse_cons]
      match rest with
      | [] => simp [ensureNL, hc]
      | x :: xs => rw [ensureNL_cons_cons]; simp

theorem vsegs_flat (v : Str) (hv : v ≠ []) :
    (vsegs v).foldr (fun seg t => seg ++ '\n' :: t) [] = ensureNL v := by
  match v, hv with
  | c :: cs, _ =>
    have := vsegsGo_flat (c :: cs) []
    simpa [vsegs] using this

theorem vsegsGo_noNL : ∀ (r acc : Str), '\n' ∉ acc →
    ∀ seg ∈ vsegsGo acc r, '\n' ∉ seg
  | [], acc, ha => by
    intro seg hseg
    rw [show vsegsGo acc [] = [acc.reverse] from rfl] at hseg
    simp only [List.mem_singleton] at hseg
    subst hseg
    simpa using ha
  | c :: rest, acc, ha => by
    intro seg hseg
    by_cases hc : c = '\n'
    · subst hc
      match rest with
      | [] =>
        rw [show vsegsGo acc ['\n'] = [acc.reverse] from rfl] at hseg
        simp only [List.mem_singleton] at hseg
        subst hseg
        simpa using ha
      | x :: xs =>
        rw [vsegsGo_cons_nl] at hseg
        simp only [List.mem_cons] at hseg
        rcases hseg with hseg | hseg
        · subst hseg; simpa using ha
        · exact vsegsGo_noNL (x :: xs) [] (by simp) seg hseg
    · rw [vsegsGo_cons_ne acc c rest hc] at hseg
      refine vsegsGo_noNL rest (c :: acc) ?_ seg hseg
      simp only [List.mem_cons, not_or]
      exact ⟨fun h => hc h.symm, ha⟩

theorem vsegs_noNL (v : Str) : ∀ seg ∈ vsegs v, '\n' ∉ seg := by
  match v with
  | [] => intro seg hseg; simp [vsegs] at hseg
  | c :: cs =>
    intro seg hseg
    exact vsegsGo_noNL (c :: cs) [] (by simp) seg (by simpa [vsegs] using hseg)

theorem vsegsGo_ne_nil : ∀ (r acc : Str), vsegsGo acc r ≠ []
  | [], acc => by simp [vsegsGo]
  | c :: rest, acc => by
    by_cases hc : c = '\n'
    · subst hc
      match rest with
      | [] => simp [vsegsGo]
      | x :: xs => simp [vsegsGo]
    · rw [vsegsGo_cons_ne acc c rest hc]
      exact vsegsGo_ne_nil rest (c :: acc)

theorem vsegs_ne_nil (v : Str) (hv : v ≠ []) : vsegs v ≠ [] := by
  match v, hv with
  | c :: cs, _ =>
    rw [show vsegs (c :: cs) = vsegsGo [] (c :: cs) by simp [vsegs]]
    exact vsegsGo_ne_nil (c :: cs) []

/-! ### Tag/value split facts -/

theorem findIdx?_none_go (p : Char → Bool) : ∀ (l : Str) (i : Nat),
    (∀ x ∈ l, p x = false) → List.findIdx? p l i = none
  | [], _, _ => rfl
  | c :: cs, i, h => by
    simp only [List.findIdx?, h c (by simp), Bool.false_eq_true, if_false]
    exact findIdx?_none_go p cs (i + 1) (fun x hx => h x (by simp [hx]))

theorem findIdx?_first_go (p : Char → Bool) : ∀ (t : Str) (c : Char) (r : Str) (i : Nat),
    (∀ x ∈ t, p x = false) → p c = true →
    List.findIdx? p (t ++ c :: r) i = some (i + t.length)
  | [], c, r, i, _, hc => by simp [List.findIdx?, hc]
  | a :: t, c, r, i, h, hc => by
    have ih := findIdx?_first_go p t c r (i + 1) (fun x hx => h x (by simp [hx])) hc
    simp only [List.cons_append, List.findIdx?, h a (by simp),
      Bool.false_eq_true, if_false, List.append_eq]
    rw [ih]
    congr 1
    simp only [List.length_cons]
    omega

theorem findIdx?_isSome_go (p : Char → Bool) : ∀ (l : Str) (i : Nat),
    (List.findIdx? p l i).isSome = l.any p
  | [], _ => rfl
  | c :: cs, i => by
    by_cases hc : p c = true
    · simp [List.findIdx?, hc]
    · have hc' : p c = false := by
        cases hpc : p c
        · rfl
        · exact absurd hpc hc
      simp only [List.findIdx?, hc', Bool.false_eq_true, if_false, List.any_cons]
      rw [findIdx?_isSome_go p cs (i + 1)]
      simp

theorem any_eq_mem (v : Str) (a : Char) :
    v.any (fun c => c = a) = decide (a ∈ v) := by
  by_cases h : a ∈ v
  · have hv : v.any (fun c => c = a) = true := by
      rw [List.any_eq_true]
      exact ⟨a, h, by simp⟩
    simp [hv, h]
  · have hv : v.any (fun c => c = a) = false := by
      rw [List.any_eq_false]
      intro x hx hpa
      exact h ((of_decide_eq_true hpa) ▸ hx)
    simp [hv, h]

theorem findIdx?_colon_append (t r : Str) (htc : ':' ∉ t) :
    (t ++ ':' :: r).findIdx? (fun c => c = ':') = some t.length := by
  have := findIdx?_first_go (fun c => decide (c = ':')) t ':' r 0
    (fun x hx => by
      simp only [decide_eq_false_iff_not]
      intro hcontra
      exact htc (hcontra ▸ hx)) (by simp)
  simpa using this

theorem findIdx?_colon_none (t : Str) (htc : ':' ∉ t) :
    t.findIdx? (fun c => c = ':') = none := by
  exact findIdx?_none_go (fun c => decide (c = ':')) t 0
    (fun x hx => by
      simp only [decide_eq_false_iff_not]
      intro hcontra
      exact htc (hcontra ▸ hx))

theorem dots_dash (r : Str) :
    (('-' :: ' ' :: r).findIdx? (fun c => c = ':')).isSome = decide (':' ∈ r) := by
  rw [show (('-' :: ' ' :: r).findIdx? (fun c => c = ':'))
      = List.findIdx? (fun c => decide (c = ':')) ('-' :: ' ' :: r) 0 from rfl,
    findIdx?_isSome_go]
  simp only [List.any_cons]
  rw [any_eq_mem r ':']
  have h1 : decide ('-' = ':') = false := by decide
  have h2 : decide (' ' = ':') = false := by decide
  rw [h1, h2]
  simp

theorem charAt_head_append (t r : Str) (ht : t ≠ []) :
    charAt (t ++ r) 0 = charAt t 0 := by
  match t, ht with
  | c :: ts, _ => rfl

theorem drop_tag_colon (t r : Str) :
    (t ++ ':' :: r).drop (t.length + 1) = r := by
  rw [show t ++ ':' :: r = (t ++ [':']) ++ r by simp,
    show t.length + 1 = (t ++ [':']).length by simp]
  exact List.drop_left (t ++ [':']) r

theorem splitTagVal_tagged_val (t v : Str) (ht : t ≠ []) (htd : ¬(charAt t 0 = '-'))
    (htc : ':' ∉ t) (htt : ctrim t = t) (hvv : ctrim v = v) :
    splitTagVal (t ++ ':' :: ' ' :: v) = (t, v) := by
  have h0 : charAt (t ++ ':' :: ' ' :: v) 0 = charAt t 0 :=
    charAt_head_append t (':' :: ' ' :: v) ht
  have hcond : ¬(t ++ ':' :: ' ' :: v ≠ [] ∧ charAt (t ++ ':' :: ' ' :: v) 0 = '-') := by
    rw [h0]
    exact fun h => htd h.2
  rw [splitTagVal, if_neg hcond, findIdx?_colon_append t (' ' :: v) htc]
  have hlen : t.length + 1 < (t ++ ':' :: ' ' :: v).length := by
    simp only [List.length_append, List.length_cons]
    omega
  simp only [if_pos hlen, List.take_left, htt, drop_tag_colon t (' ' :: v),
    ctrim_space_cons, hvv]

theorem splitTagVal_tagged_colon (t : Str) (ht : t ≠ []) (htd : ¬(charAt t 0 = '-'))
    (htc : ':' ∉ t) (htt : ctrim t = t) :
    splitTagVal (t ++ [':']) = (t, []) := by
  have h0 : charAt (t ++ [':']) 0 = charAt t 0 := charAt_head_append t [':'] ht
  have hcond : ¬(t ++ [':'] ≠ [] ∧ charAt (t ++ [':']) 0 = '-') := by
    rw [h0]
    exact fun h => htd h.2
  rw [show t ++ [':'] = t ++ ':' :: ([] : Str) by rfl] at hcond ⊢
  rw [splitTagVal, if_neg hcond, findIdx?_colon_append t [] htc]
  have hlen : ¬(t.length + 1 < (t ++ ':' :: ([] : Str)).length) := by
    simp only [List.length_append, List.length_cons, List.length_nil]
    omega
  simp only [if_neg hlen, List.take_left, htt]
  rfl

theorem splitTagVal_tag_only (t : Str) (ht : t ≠ []) (htd : ¬(charAt t 0 = '-'))
    (htc : ':' ∉ t) (htt : ctrim t = t) :
    splitTagVal t = (t, []) := by
  have hcond : ¬(t ≠ [] ∧ charAt t 0 = '-') := fun h => htd h.2
  rw [splitTagVal, if_neg hcond, findIdx?_colon_none t htc, htt]

theorem splitTagVal_dash (v : Str) (hvv : ctrim v = v) :
    splitTagVal ('-' :: ' ' :: v) = ([], v) := by
  rw [splitTagVal, if_pos ⟨by simp, rfl⟩]
  simp only [List.drop_succ_cons, List.drop_zero, ctrim_space_cons, hvv]

theorem splitTagVal_dash_only : splitTagVal ['-'] = ([], []) := by
  rw [splitTagVal, if_pos ⟨by simp, rfl⟩]
  rfl

/-! ### Zipper facts -/

theorem ascendSteps_congr : ∀ (k : Nat) (s s2 : PState) (r : List Str) (e : Bool)
    (ln : Nat), ascendSteps k s = .ok s2 →
    ascendSteps k { s with remaining := r, eof := e, lineNo := ln }
      = .ok { s2 with remaining := r, eof := e, lineNo := ln }
  | 0, s, s2, r, e, ln, h => by
    simp only [ascendSteps] at h
    cases h
    rfl
  | k + 1, ⟨rem, eo, lno, cd, ds, fo, st, pv⟩, s2, r, e, ln, h => by
    cases fo with
    | none => simp [ascendSteps] at h
    | some f =>
      cases st with
      | nil =>
        simp only [ascendSteps] at h ⊢
        exact ascendSteps_congr k _ s2 r e ln h
      | cons c rest =>
        simp only [ascendSteps] at h ⊢
        exact ascendSteps_congr k _ s2 r e ln h

theorem descendPrev_congr : ∀ (s s2 : PState) (r : List Str) (e : Bool) (ln : Nat),
    descendPrev s = .ok s2 →
    descendPrev { s with remaining := r, eof := e, lineNo := ln }
      = .ok { s2 with remaining := r, eof := e, lineNo := ln }
  | ⟨rem, eo, lno, cd, ds, fo, st, pv⟩, s2, r, e, ln, h => by
    cases pv with
    | none =>
      simp only [descendPrev] at h ⊢
      cases h
      rfl
    | some i =>
      cases fo with
      | none => simp [descendPrev] at h
      | some f =>
        simp only [descendPrev, List.get?_eq_getElem?] at h ⊢
        cases hk : f.kids[i]? with
        | none =>
          rw [hk] at h
          exact absurd h (by simp)
        | some ch =>
          rw [hk] at h
          have h' : Except.ok
              ({ remaining := rem, eof := eo, lineNo := lno, curDepth := cd,
                 docSrc := ds, focus := some ch,
                 stack := ⟨f.setKids [], f.kids.take i, f.kids.drop (i + 1)⟩ :: st,
                 prev := some i } : PState) = Except.ok s2 := h
          cases h'
          rfl

theorem ascendSteps_append : ∀ (a b : Nat) (s t u : PState),
    ascendSteps a s = .ok t → ascendSteps b t = .ok u →
    ascendSteps (a + b) s = .ok u
  | 0, b, s, t, u, ha, hb => by
    simp only [ascendSteps] at ha
    cases ha
    simpa using hb
  | a + 1, b, ⟨rem, eo, lno, cd, ds, fo, st, pv⟩, t, u, ha, hb => by
    rw [show a + 1 + b = (a + b) + 1 by omega]
    cases fo with
    | none => simp [ascendSteps] at ha
    | some f =>
      cases st with
      | nil =>
        simp only [ascendSteps] at ha ⊢
        exact ascendSteps_append a b _ t u ha hb
      | cons c rest =>
        simp only [ascendSteps] at ha ⊢
        exact ascendSteps_append a b _ t u ha hb

theorem ascendSteps_none : ∀ (k : Nat) (s : PState), s.focus = none → 1 ≤ k →
    ascendSteps k s = .error .nullParent
  | k + 1, s, hf, _ => by simp [ascendSteps, hf]

theorem closeAll_of_ascend : ∀ (k : Nat) (s : PState) (X : ONode),
    ascendSteps k s = .ok { s with focus := some X, stack := [] } →
    closeAll s.focus s.stack = some X
  | 0, s, X, h => by
    simp only [ascendSteps] at h
    have hs := Except.ok.inj h
    have hf : s.focus = some X := by
      have := congrArg PState.focus hs
      simpa using this
    have hst : s.stack = [] := by
      have := congrArg PState.stack hs
      simpa using this
    rw [hf, hst]
    rfl
  | k + 1, s, X, h => by
    cases hf : s.focus with
    | none => simp [ascendSteps, hf] at h
    | some f =>
      cases hst : s.stack with
      | nil =>
        simp only [ascendSteps, hf, hst] at h
        cases k with
        | zero =>
          simp only [ascendSteps] at h
          have := congrArg PState.focus (Except.ok.inj h)
          simp at this
        | succ k' =>
          rw [ascendSteps_none (k' + 1) _ rfl (by omega)] at h
          exact absurd h (by simp)
      | cons c rest =>
        simp only [ascendSteps, hf, hst] at h
        have ih := closeAll_of_ascend k
          { s with focus := some (closeCtx c f), stack := rest } X h
        simp only [closeAll]
        simpa using ih

theorem dTrans_entry (d : Nat) (F : ONode) (S : List PCtx) (s : PState)
    (r : List Str) (e : Bool) (ln : Nat)
    (hE : ready F S d s ∨
      (d = s.curDepth + 1 ∧
        descendPrev s = .ok { s with focus := some F, stack := S })) :
    dTrans d { s with remaining := r, eof := e, lineNo := ln }
      = .ok { s with
              remaining := r, eof := e, lineNo := ln,
              focus := some F, stack := S } := by
  rcases hE with ⟨hd, ha⟩ | ⟨hd, hdp⟩
  · have hc := ascendSteps_congr (s.curDepth - d) s _ r e ln ha
    rw [dTrans]
    have hcur : ({ s with remaining := r, eof := e, lineNo := ln } : PState).curDepth
        = s.curDepth := rfl
    rw [if_neg (by rw [hcur]; omega)]
    by_cases hlt : d < s.curDepth
    · rw [if_pos (by rw [hcur]; exact hlt), hcur]
      exact hc
    · have hdeq : d = s.curDepth := by omega
      rw [if_neg (by rw [hcur]; exact hlt), if_neg (by rw [hcur]; simp [hdeq])]
      have h0 : s.curDepth - d = 0 := by omega
      rw [h0] at hc
      simp only [ascendSteps] at hc
      exact hc
  · have hcur : ({ s with remaining := r, eof := e, lineNo := ln } : PState).curDepth
        = s.curDepth := rfl
    rw [dTrans, if_pos (show _ from by rw [hcur]; exact hd)]
    exact descendPrev_congr s _ r e ln hdp

theorem ONode.kids_setKids (P : ONode) (K : List ONode) : (P.setKids K).kids = K := by
  obtain ⟨t, v, s, nl, u, cs⟩ := P
  simp

theorem ONode.setKids_setKids (P : ONode) (A B : List ONode) :
    (P.setKids A).setKids B = P.setKids B := by
  obtain ⟨t, v, s, nl, u, cs⟩ := P
  simp

theorem get?_concat_self (K : List ONode) (x : ONode) :
    (K ++ [x]).get? K.length = some x := by
  induction K with
  | nil => rfl
  | cons a K ih => simpa using ih

theorem drop_concat_self (K : List ONode) (x : ONode) :
    (K ++ [x]).drop (K.length + 1) = [] := by
  rw [show K.length + 1 = (K ++ [x]).length by simp]
  exact List.drop_length _

theorem firstMatchIdx_none (K : List ONode) (nc : ONode)
    (h : ∀ b ∈ K, (decide (b.tag = nc.tag) && (b.uniq || nc.uniq)) = false) :
    firstMatchIdx K nc = none := by
  induction K with
  | nil => rfl
  | cons c rest ih =>
    simp only [firstMatchIdx, h c (by simp), Bool.false_eq_true, if_false]
    rw [ih (fun b hb => h b (by simp [hb]))]
    rfl

theorem addChildIdx_append (K : List ONode) (nc : ONode)
    (h : hasTag nc = false ∨ firstMatchIdx K nc = none) :
    addChildIdx K nc = (K ++ [nc], K.length) := by
  rcases h with h | h
  · simp [addChildIdx, h]
  · by_cases ht : hasTag nc = true
    · simp [addChildIdx, ht, h]
    · simp [addChildIdx, ht]

theorem stopLine_mono (e d : Nat) (l : Str) (hed : e ≤ d) (h : stopLine e l) :
    stopLine d l :=
  ⟨Nat.le_trans h.1 hed, h.2.1, h.2.2.1, h.2.2.2⟩

theorem stopOK_mono (e d : Nat) (ls : List Str) (hed : e ≤ d) (h : stopOK e ls) :
    stopOK d ls := by
  match ls with
  | [] => trivial
  | l :: rest => exact stopLine_mono e d l hed h

/-! ### Shape of emitted lines -/

theorem EmittableN_parts (t v s0 : Str) (nl u : Bool) (cs : OForest)
    (h : EmittableN (.mk t v s0 nl u cs) = true) :
    tagOK t = true ∧ (if nl then v = [] else valOK v = true) ∧
    ('\n' ∈ v → cs = .nil) ∧ sibsOK cs.toList = true ∧ EmittableF cs = true := by
  rw [EmittableN.eq_def] at h
  simp only [Bool.and_eq_true] at h
  obtain ⟨⟨⟨⟨hA, hB⟩, hC⟩, hD⟩, hE⟩ := h
  refine ⟨hA, ?_, ?_, hD, hE⟩
  · cases nl
    · simpa using hB
    · simpa using hB
  · intro hm
    rw [if_pos hm] at hC
    cases cs with
    | nil => rfl
    | cons a b => exact absurd hC (by simp)

theorem tagOK_props (t : Str) (h : tagOK t = true) (hne : t ≠ []) :
    isCSpace (charAt t 0) = false ∧ isCSpace (charAt t (t.length - 1)) = false ∧
    ¬(':' ∈ t) ∧ ¬('\n' ∈ t) ∧ ¬(charAt t 0 = '-') ∧ ¬(t.take 2 = "//".data) := by
  rw [tagOK] at h
  simp only [Bool.or_eq_true, decide_eq_true_eq, Bool.and_eq_true,
    Bool.not_eq_true', decide_eq_false_iff_not] at h
  rcases h with h | h
  · exact absurd h hne
  · obtain ⟨⟨⟨⟨⟨h1, h2⟩, h3⟩, h4⟩, h5⟩, h6⟩ := h
    exact ⟨h1, h2, h3, h4, h5, h6⟩

theorem valOK_props (v : Str) (h : valOK v = true) (hne : ¬(v = []))
    (hnl : ¬('\n' ∈ v)) :
    isCSpace (charAt v 0) = false ∧ isCSpace (charAt v (v.length - 1)) = false ∧
    ¬(v = "~".data) ∧ ¬(v = "|".data) ∧ ¬(v = "|-".data) ∧ ¬(v = "|+".data) := by
  rw [valOK, if_neg hne, if_neg hnl] at h
  simp only [Bool.and_eq_true, Bool.not_eq_true', decide_eq_false_iff_not] at h
  obtain ⟨⟨⟨⟨⟨h1, h2⟩, h3⟩, h4⟩, h5⟩, h6⟩ := h
  exact ⟨h1, h2, h3, h4, h5, h6⟩

theorem charAt_cons_succ (c : Char) (u : Str) (i : Nat) :
    charAt (c :: u) (i + 1) = charAt u i := rfl

theorem getLast?_charAt (v : Str) (h : v ≠ []) :
    v.getLast? = some (charAt v (v.length - 1)) := by
  have hlt : v.length - 1 < v.length := by
    match v, h with | c :: vs, _ => simp
  rw [List.getLast?_eq_getElem?, List.getElem?_eq_getElem hlt]
  simp [charAt, List.getD_eq_getElem?_getD, List.getElem?_eq_getElem hlt]

theorem ctrim_eq_self_last (u : Str) (hne : u ≠ [])
    (h0 : isCSpace (charAt u 0) = false)
    (h1 : ∀ c, u.getLast? = some c → isCSpace c = false) : ctrim u = u := by
  apply ctrim_eq_self u hne h0
  have hL := getLast?_charAt u hne
  exact h1 _ hL

theorem isCSpace_false_elim (c : Char) (h : isCSpace c = false) :
    ¬(c = ' ') ∧ ¬(c = '\t') := by
  rw [isCSpace] at h
  simp only [Bool.or_eq_false_iff, decide_eq_false_iff_not] at h
  exact ⟨h.1.1.1.1.1, h.1.1.1.1.2⟩

theorem markerOf_cases (v : Str) :
    markerOf v = "|+".data ∨ markerOf v = "|".data ∨ markerOf v = "|-".data := by
  rw [markerOf]
  split
  · exact Or.inl rfl
  · split
    · exact Or.inr (Or.inl rfl)
    · exact Or.inr (Or.inr rfl)

theorem bodyOf_t_nul (t v s0 : Str) (u : Bool) (cs : OForest) (ht : ¬(t = [])) :
    bodyOf (.mk t v s0 true u cs) = t ++ ':' :: ' ' :: ['~'] := by
  simp [bodyOf, hasTag, hasValue, ht]

theorem bodyOf_t_multi (t v s0 : Str) (u : Bool) (cs : OForest) (ht : ¬(t = []))
    (hv : ¬(v = [])) (hm : '\n' ∈ v) :
    bodyOf (.mk t v s0 false u cs) = t ++ ':' :: ' ' :: markerOf v := by
  simp [bodyOf, hasTag, hasValue, ht, hv, hm]

theorem bodyOf_t_val (t v s0 : Str) (u : Bool) (cs : OForest) (ht : ¬(t = []))
    (hv : ¬(v = [])) (hm : ¬('\n' ∈ v)) :
    bodyOf (.mk t v s0 false u cs) = t ++ ':' :: ' ' :: v := by
  simp [bodyOf, hasTag, hasValue, ht, hv, hm]

theorem bodyOf_t_uniq (t s0 : Str) (cs : OForest) (ht : ¬(t = [])) :
    bodyOf (.mk t [] s0 false true cs) = t ++ [':'] := by
  simp [bodyOf, hasTag, hasValue, ht]

theorem bodyOf_t_bare (t s0 : Str) (cs : OForest) (ht : ¬(t = [])) :
    bodyOf (.mk t [] s0 false false cs) = t := by
  simp [bodyOf, hasTag, hasValue, ht]

theorem bodyOf_d_nul (v s0 : Str) (u : Bool) (cs : OForest) :
    bodyOf (.mk [] v s0 true u cs) = '-' :: ' ' :: ['~'] := by
  simp [bodyOf, hasTag, hasValue]

theorem bodyOf_d_multi (v s0 : Str) (u : Bool) (cs : OForest)
    (hv : ¬(v = [])) (hm : '\n' ∈ v) :
    bodyOf (.mk [] v s0 false u cs) = '-' :: ' ' :: markerOf v := by
  simp [bodyOf, hasTag, hasValue, hv, hm]

theorem bodyOf_d_val (v s0 : Str) (u : Bool) (cs : OForest)
    (hv : ¬(v = [])) (hm : ¬('\n' ∈ v)) :
    bodyOf (.mk [] v s0 false u cs) = '-' :: ' ' :: v := by
  simp [bodyOf, hasTag, hasValue, hv, hm]

theorem bodyOf_d_bare (s0 : Str) (u : Bool) (cs : OForest) :
    bodyOf (.mk [] [] s0 false u cs) = ['-'] := by
  simp [bodyOf, hasTag, hasValue]

theorem take2_append_ne (t r : Str) (hne : t ≠ [])
    (h2 : ¬(t.take 2 = "//".data)) (hr : r = [] ∨ ∃ x, r = ':' :: x) :
    ¬((t ++ r).take 2 = "//".data) := by
  match t, hne with
  | [a], _ =>
    rcases hr with rfl | ⟨x, rfl⟩
    · simpa using h2
    · intro hh
      have : a = '/' ∧ ':' = '/' := by simpa using hh
      exact absurd this.2 (by decide)
  | a :: b :: ts, _ =>
    intro hh
    apply h2
    simpa using hh

theorem clean_of_parts (b : Str) (hne : b ≠ [])
    (h0 : isCSpace (charAt b 0) = false)
    (hL : ∀ c, b.getLast? = some c → isCSpace c = false) :
    ¬(charAt b 0 = ' ') ∧ ¬(charAt b 0 = '\t') ∧ b ≠ [] ∧ ctrim b = b :=
  ⟨(isCSpace_false_elim _ h0).1, (isCSpace_false_elim _ h0).2, hne,
    ctrim_eq_self_last b hne h0 hL⟩

theorem getLast?_space_cons (v : Str) (hv : v ≠ []) :
    (' ' :: v).getLast? = v.getLast? := by
  match v, hv with
  | c :: vs, _ => simp [List.getLast?_cons_cons]

theorem getLast?_append_right (X Y : Str) (hY : Y ≠ []) :
    (X ++ Y).getLast? = Y.getLast? := by
  rw [List.getLast?_eq_head?_reverse, List.getLast?_eq_head?_reverse,
    List.reverse_append]
  match hr : Y.reverse with
  | [] => exact absurd (List.reverse_eq_nil_iff.mp hr) hY
  | b :: B => rfl

theorem bodyOf_clean (t v s0 : Str) (nl u : Bool) (cs : OForest)
    (hEm : EmittableN (.mk t v s0 nl u cs) = true) :
    ¬(charAt (bodyOf (.mk t v s0 nl u cs)) 0 = ' ') ∧
    ¬(charAt (bodyOf (.mk t v s0 nl u cs)) 0 = '\t') ∧
    bodyOf (.mk t v s0 nl u cs) ≠ [] ∧
    ctrim (bodyOf (.mk t v s0 nl u cs)) = bodyOf (.mk t v s0 nl u cs) ∧
    ¬((bodyOf (.mk t v s0 nl u cs)).take 2 = "//".data) ∧
    ¬('\n' ∈ bodyOf (.mk t v s0 nl u cs)) := by
  obtain ⟨htag, hval, hmul, hsib, hEf⟩ := EmittableN_parts t v s0 nl u cs hEm
  by_cases ht : t = []
  · subst ht
    cases nl with
    | true =>
      have hv0 : v = [] := by simpa using hval
      subst hv0
      rw [bodyOf_d_nul]
      exact ⟨by decide, by decide, by simp, by decide, by decide, by decide⟩
    | false =>
      have hvOK : valOK v = true := by simpa using hval
      by_cases hv : v = []
      · subst hv
        rw [bodyOf_d_bare]
        exact ⟨by decide, by decide, by simp, by decide, by decide, by decide⟩
      · by_cases hm : '\n' ∈ v
        · rw [bodyOf_d_multi v s0 u cs hv hm]
          rcases markerOf_cases v with hmk | hmk | hmk <;> rw [hmk] <;>
            exact ⟨by decide, by decide, by simp, by decide, by decide, by decide⟩
        · obtain ⟨q1, q2, _, _, _, _⟩ := valOK_props v hvOK hv hm
          rw [bodyOf_d_val v s0 u cs hv hm]
          refine ⟨by rw [charAt_cons_zero]; decide, by rw [charAt_cons_zero]; decide,
            by simp, ?_,
            by rw [show List.take 2 ('-' :: ' ' :: v) = ['-', ' '] from rfl]; decide, ?_⟩
          · refine ctrim_eq_self_last _ (by simp)
              (by rw [charAt_cons_zero]; decide) ?_
            intro c hc
            rw [List.getLast?_cons_cons, getLast?_space_cons v hv,
              getLast?_charAt v hv] at hc
            cases hc
            exact q2
          · simp only [List.mem_cons, not_or]
            exact ⟨by decide, by decide, hm⟩
  · obtain ⟨p1, p2, p3, p4, p5, p6⟩ := tagOK_props t htag ht
    have hhd : ∀ r : Str, charAt (t ++ r) 0 = charAt t 0 :=
      fun r => charAt_head_append t r ht
    have hsp : ∀ r : Str, ¬(charAt (t ++ r) 0 = ' ') := by
      intro r hcontra
      rw [hhd r] at hcontra
      exact (isCSpace_false_elim _ p1).1 hcontra
    have htb : ∀ r : Str, ¬(charAt (t ++ r) 0 = '\t') := by
      intro r hcontra
      rw [hhd r] at hcontra
      exact (isCSpace_false_elim _ p1).2 hcontra
    have hh0 : ∀ r : Str, isCSpace (charAt (t ++ r) 0) = false := by
      intro r
      rw [hhd r]
      exact p1
    cases nl with
    | true =>
      have hv0 : v = [] := by simpa using hval
      subst hv0
      rw [bodyOf_t_nul t [] s0 u cs ht]
      refine ⟨hsp _, htb _, by simp, ?_, ?_, ?_⟩
      · refine ctrim_eq_self_last _ (by simp) (hh0 _) ?_
        intro c hc
        rw [getLast?_append_right t _ (by simp)] at hc
        simp only [List.getLast?_cons_cons] at hc
        have : c = '~' := by simpa using hc.symm
        subst this
        decide
      · exact take2_append_ne t _ ht p6 (Or.inr ⟨_, rfl⟩)
      · simp only [List.mem_append, List.mem_cons, not_or]
        exact ⟨p4, by decide, by decide, by simp⟩
    | false =>
      have hvOK : valOK v = true := by simpa using hval
      by_cases hv : v = []
      · subst hv
        by_cases hu : u = true
        · subst hu
          rw [bodyOf_t_uniq t s0 cs ht]
          refine ⟨hsp _, htb _, by simp, ?_, ?_, ?_⟩
          · refine ctrim_eq_self_last _ (by simp) (hh0 _) ?_
            intro c hc
            rw [getLast?_append_right t _ (by simp)] at hc
            have : c = ':' := by simpa using hc.symm
            subst this
            decide
          · exact take2_append_ne t _ ht p6 (Or.inr ⟨_, rfl⟩)
          · simp only [List.mem_append, List.mem_cons, not_or]
            exact ⟨p4, by decide, by simp⟩
        · have hu0 : u = false := by
            cases u
            · rfl
            · exact absurd rfl hu
          subst hu0
          rw [bodyOf_t_bare t s0 cs ht]
          refine ⟨(isCSpace_false_elim _ p1).1, (isCSpace_false_elim _ p1).2,
            ht, ?_, p6, p4⟩
          refine ctrim_eq_self_last t ht p1 ?_
          intro c hc
          rw [getLast?_charAt t ht] at hc
          cases hc
          exact p2
      · by_cases hm : '\n' ∈ v
        · rw [bodyOf_t_multi t v s0 u cs ht hv hm]
          refine ⟨hsp _, htb _, by simp, ?_, ?_, ?_⟩
          · refine ctrim_eq_self_last _ (by simp) (hh0 _) ?_
            intro c hc
            rw [getLast?_append_right t _ (by simp)] at hc
            rcases markerOf_cases v with hmk | hmk | hmk
            · rw [hmk] at hc
              have hcc : c = '+' := by
                rw [show (':' :: ' ' :: "|+".data) = [':', ' ', '|', '+'] from rfl] at hc
                simpa using hc.symm
              subst hcc
              decide
            · rw [hmk] at hc
              have hcc : c = '|' := by
                rw [show (':' :: ' ' :: "|".data) = [':', ' ', '|'] from rfl] at hc
                simpa using hc.symm
              subst hcc
              decide
            · rw [hmk] at hc
              have hcc : c = '-' := by
                rw [show (':' :: ' ' :: "|-".data) = [':', ' ', '|', '-'] from rfl] at hc
                simpa using hc.symm
              subst hcc
              decide
          · exact take2_append_ne t _ ht p6 (Or.inr ⟨_, rfl⟩)
          · simp only [List.mem_append, List.mem_cons, not_or]
            refine ⟨p4, by decide, by decide, ?_⟩
            rcases markerOf_cases v with hmk | hmk | hmk <;> rw [hmk] <;> decide
        · obtain ⟨q1, q2, _, _, _, _⟩ := valOK_props v hvOK hv hm
          rw [bodyOf_t_val t v s0 u cs ht hv hm]
          refine ⟨hsp _, htb _, by simp, ?_, ?_, ?_⟩
          · refine ctrim_eq_self_last _ (by simp) (hh0 _) ?_
            intro c hc
            rw [getLast?_append_right t _ (by simp),
              List.getLast?_cons_cons, getLast?_space_cons v hv,
              getLast?_charAt v hv] at hc
            cases hc
            exact q2
          · exact take2_append_ne t _ ht p6 (Or.inr ⟨_, rfl⟩)
          · simp only [List.mem_append, List.mem_cons, not_or]
            exact ⟨p4, by decide, by decide, hm⟩

theorem forestLines_nil (d : Nat) : forestLines .nil d = [] := rfl

theorem forestLines_cons (c : ONode) (cs : OForest) (d : Nat) :
    forestLines (.cons c cs) d = treeLines c d ++ forestLines cs d := rfl

theorem treeLines_mk (t v s0 : Str) (nl u : Bool) (cc : OForest) (d : Nat) :
    treeLines (.mk t v s0 nl u cc) d
      = (emitIndent d ++ bodyOf (.mk t v s0 nl u cc)) ::
          ((if isMulti (.mk t v s0 nl u cc) then vlinesOf v d else [])
            ++ forestLines cc (d + 1)) := rfl

theorem EmittableF_cons (c : ONode) (cs : OForest) :
    EmittableF (.cons c cs) = (EmittableN c && EmittableF cs) := rfl

theorem lineCount_mk (t v s0 : Str) (nl u : Bool) (cc : OForest) :
    lineCount (.mk t v s0 nl u cc) = 1 + vcount v + lineCountF cc := rfl

theorem lineCountF_nil : lineCountF .nil = 0 := rfl

theorem lineCountF_cons (c : ONode) (cs : OForest) :
    lineCountF (.cons c cs) = lineCount c + lineCountF cs := rfl

theorem rimg_mk (sr : Str) (ln : Nat) (t v s0 : Str) (nl u : Bool) (cc : OForest) :
    rimg sr ln (.mk t v s0 nl u cc)
      = .mk t v (sr ++ ':' :: natStr ln) nl (imgUniqC t v nl u)
          (rimgF sr (ln + 1 + vcount v) cc) := rfl

theorem rimgF_nil (sr : Str) (ln : Nat) : rimgF sr ln .nil = .nil := rfl

theorem rimgF_cons (sr : Str) (ln : Nat) (c : ONode) (cs : OForest) :
    rimgF sr ln (.cons c cs)
      = .cons (rimg sr ln c) (rimgF sr (ln + lineCount c) cs) := rfl

theorem vcount_eq (t v s0 : Str) (nl u : Bool) (cs : OForest)
    (hEm : EmittableN (.mk t v s0 nl u cs) = true) :
    (if isMulti (.mk t v s0 nl u cs) then (vsegs v).length else 0) = vcount v := by
  obtain ⟨htag, hval, _, _, _⟩ := EmittableN_parts t v s0 nl u cs hEm
  by_cases hm : '\n' ∈ v
  · have hnl : nl = false := by
      cases nl
      · rfl
      · have hv0 : v = [] := by simpa using hval
        subst hv0
        simp at hm
    subst hnl
    have hv : ¬(v = []) := by
      intro h0
      subst h0
      simp at hm
    simp [isMulti, hasValue, hv, hm, vcount]
  · simp [isMulti, hasValue, vcount, hm]

theorem lineDepth_emit (e : Nat) (b : Str) (hb : ¬(charAt b 0 = ' ')) (hne : b ≠ []) :
    leadingSpaces (emitIndent e ++ b) = 2 * e := by
  rw [emitIndent, leadingSpaces_replicate]
  match b, hne with
  | c :: bs, _ =>
    rw [leadingSpaces_cons c bs (by simpa [charAt] using hb)]
    omega

theorem getLineDepth_false (l : Str) (c : Nat) (src : Str) (ln : Nat)
    (htab : charAt l (leadingSpaces l) ≠ '\t')
    (heven : leadingSpaces l % 2 = 0) :
    getLineDepth l c false src ln = .ok (lineDepth l) := by
  simp [getLineDepth, lineDepth, htab, heven]

theorem ownLine_depth (e cur : Nat) (b : Str) (src : Str) (ln : Nat)
    (hb : ¬(charAt b 0 = ' ')) (hbt : ¬(charAt b 0 = '\t')) (hne : b ≠ []) :
    getLineDepth (emitIndent e ++ b) cur false src ln = .ok e := by
  have hls := lineDepth_emit e b hb hne
  have hch : charAt (emitIndent e ++ b) (2 * e) = charAt b 0 := by
    rw [show 2 * e = (emitIndent e).length by simp [emitIndent], charAt_append_length]
  have hdiv : 2 * e / 2 = e := by omega
  have hgl := getLineDepth_false (emitIndent e ++ b) cur src ln
    (by rw [hls, hch]; exact hbt) (by rw [hls]; omega)
  rw [hgl, lineDepth, hls, hdiv]

theorem stopLine_emitLine (e d : Nat) (b : Str) (hb : ¬(charAt b 0 = ' '))
    (hbt : ¬(charAt b 0 = '\t')) (hne : b ≠ []) (hct : ctrim b = b) (hed : e ≤ d) :
    stopLine d (emitIndent e ++ b) := by
  have hls := lineDepth_emit e b hb hne
  refine ⟨?_, ?_, ?_, ?_⟩
  · rw [lineDepth, hls]
    omega
  · rw [hls, show 2 * e = (emitIndent e).length by simp [emitIndent],
      charAt_append_length]
    exact hbt
  · rw [hls]
    omega
  · rw [emitIndent, ctrim_replicate_space, hct]
    exact hne

theorem stopOK_forest : ∀ (f : OForest) (d : Nat) (suffix : List Str),
    EmittableF f = true → stopOK d suffix →
    stopOK d (forestLines f d ++ suffix)
  | .nil, d, suffix, _, hs => by
    rw [forestLines_nil]
    simpa using hs
  | .cons (.mk t v s0 nl u cc) cs, d, suffix, h, _ => by
    have hN : EmittableN (.mk t v s0 nl u cc) = true := by
      have h2 : (EmittableN (.mk t v s0 nl u cc) && EmittableF cs) = true := by
        simpa [EmittableF_cons] using h
      simp only [Bool.and_eq_true] at h2
      exact h2.1
    obtain ⟨c1, c2, c3, c4, _, _⟩ := bodyOf_clean t v s0 nl u cc hN
    rw [forestLines_cons, treeLines_mk, List.cons_append, List.cons_append]
    exact stopLine_emitLine d d _ c1 c2 c3 c4 (Nat.le_refl d)

theorem forestLines_noNL : ∀ (f : OForest) (d : Nat), EmittableF f = true →
    ∀ l ∈ forestLines f d, '\n' ∉ l
  | .nil, d, _ => by
    intro l hl
    rw [forestLines_nil] at hl
    simp at hl
  | .cons (.mk t v s0 nl u cc) cs, d, h => by
    intro l hl
    have h2 : (EmittableN (.mk t v s0 nl u cc) && EmittableF cs) = true := by
      simpa [EmittableF_cons] using h
    simp only [Bool.and_eq_true] at h2
    obtain ⟨hN, hFcs⟩ := h2
    obtain ⟨_, _, _, _, _, hb6⟩ := bodyOf_clean t v s0 nl u cc hN
    have hFcc : EmittableF cc = true :=
      (EmittableN_parts t v s0 nl u cc hN).2.2.2.2
    rw [forestLines_cons, treeLines_mk] at hl
    rcases List.mem_append.mp hl with hl | hl
    · rcases List.mem_cons.mp hl with rfl | hl
      · intro hmem
        rcases List.mem_append.mp hmem with hmem | hmem
        · rw [emitIndent] at hmem
          have := List.eq_of_mem_replicate hmem
          exact absurd this (by decide)
        · exact hb6 hmem
      · rcases List.mem_append.mp hl with hl | hl
        · split at hl
          · rw [vlinesOf] at hl
            rcases List.mem_map.mp hl with ⟨seg, hseg, rfl⟩
            intro hmem
            rcases List.mem_append.mp hmem with hmem | hmem
            · rw [emitIndent] at hmem
              have := List.eq_of_mem_replicate hmem
              exact absurd this (by decide)
            · exact vsegs_noNL v seg hseg hmem
          · simp at hl
        · exact forestLines_noNL cc (d + 1) hFcc l hl
    · exact forestLines_noNL cs d hFcs l hl

theorem forestLines_length : ∀ (f : OForest) (d : Nat), EmittableF f = true →
    (forestLines f d).length = lineCountF f
  | .nil, d, _ => by rw [forestLines_nil, lineCountF_nil]; rfl
  | .cons (.mk t v s0 nl u cc) cs, d, h => by
    have h2 : (EmittableN (.mk t v s0 nl u cc) && EmittableF cs) = true := by
      simpa [EmittableF_cons] using h
    simp only [Bool.and_eq_true] at h2
    obtain ⟨hN, hFcs⟩ := h2
    have hFcc : EmittableF cc = true :=
      (EmittableN_parts t v s0 nl u cc hN).2.2.2.2
    have hml : (if isMulti (.mk t v s0 nl u cc) then vlinesOf v d else []).length
        = vcount v := by
      rw [← vcount_eq t v s0 nl u cc hN]
      split
      · rw [vlinesOf, List.length_map]
      · rfl
    rw [forestLines_cons, treeLines_mk, lineCountF_cons, lineCount_mk]
    simp only [List.length_append, List.length_cons, hml,
      forestLines_length cc (d + 1) hFcc, forestLines_length cs d hFcs]
    omega

/-! ### Block values: capture and policy -/

theorem blockText_vlines (v : Str) (d : Nat) (hv : v ≠ []) :
    blockText d (vlinesOf v d) = ensureNL v := by
  rw [blockText, vlinesOf, List.foldr_map]
  have hdrop : ∀ seg : Str, (emitIndent (d + 1) ++ seg).drop (2 * (d + 1)) = seg := by
    intro seg
    rw [show 2 * (d + 1) = (emitIndent (d + 1)).length by simp [emitIndent]]
    exact List.drop_left _ _
  have hfold : ∀ (l : List Str),
      l.foldr (fun seg r => (emitIndent (d + 1) ++ seg).drop (2 * (d + 1)) ++ '\n' :: r) []
        = l.foldr (fun seg r => seg ++ '\n' :: r) [] := by
    intro l
    induction l with
    | nil => rfl
    | cons a l ih => simp only [List.foldr_cons, ih, hdrop a]
  rw [hfold (vsegs v), vsegs_flat v hv]

theorem vlines_deep (v : Str) (d : Nat) : ∀ l ∈ vlinesOf v d, d < lineDepth l := by
  intro l hl
  rw [vlinesOf] at hl
  rcases List.mem_map.mp hl with ⟨seg, _, rfl⟩
  rw [lineDepth, emitIndent, leadingSpaces_replicate]
  have : (2 * (d + 1) + leadingSpaces seg) / 2 = (d + 1) + leadingSpaces seg / 2 := by
    omega
  rw [this]
  omega

theorem charAt_getLast (v : Str) (hv : v ≠ []) (c : Char)
    (h : charAt v (v.length - 1) = c) : v.getLast? = some c := by
  rw [getLast?_charAt v hv, h]

theorem policy_marker (v : Str) (hnl : '\n' ∈ v) (hlen : 2 ≤ v.length) :
    applyBlockPolicy (markerOf v) (ensureNL v) = .ok v := by
  have hv : v ≠ [] := by
    intro h0
    subst h0
    simp at hnl
  by_cases h1 : charAt v (v.length - 1) = '\n'
  · have hL : v.getLast? = some '\n' := charAt_getLast v hv '\n' h1
    have hE : ensureNL v = v := by rw [ensureNL, if_pos hL]
    by_cases h2 : charAt v (v.length - 2) = '\n'
    · have hmk : markerOf v = "|+".data := by
        rw [markerOf, if_pos (by simp [h1, h2])]
      rw [hmk, hE, applyBlockPolicy, if_neg (by decide)]
    · have hmk : markerOf v = "|".data := by
        rw [markerOf, if_neg (by simp [h2]), if_pos h1]
      have hgl : v.getLast hv = '\n' := by
        have hq := List.getLast?_eq_getLast v hv
        rw [hL] at hq
        exact (Option.some.inj hq).symm
      have hu : v.dropLast ++ ['\n'] = v := by
        rw [← hgl]
        exact List.dropLast_append_getLast hv
      have hdl_len : v.dropLast.length = v.length - 1 := List.length_dropLast v
      have hdl_ne : v.dropLast ≠ [] := by
        intro h0
        rw [h0] at hdl_len
        simp at hdl_len
        omega
      have hidx : charAt v.dropLast (v.dropLast.length - 1) = charAt v (v.length - 2) := by
        conv_rhs => rw [← hu]
        simp only [charAt, List.length_append, List.length_singleton]
        rw [show v.dropLast.length + 1 - 2 = v.dropLast.length - 1 by omega]
        rw [List.getD_append _ _ _ _
          (show v.dropLast.length - 1 < v.dropLast.length by omega)]
      have hdl_last : v.dropLast.getLast? ≠ some '\n' := by
        rw [getLast?_charAt v.dropLast hdl_ne, hidx]
        intro hcontra
        exact h2 (by simpa using hcontra)
      rw [hmk, hE, applyBlockPolicy,
        if_pos (show ("|".data = "|".data ∨ "|".data = "|-".data) from Or.inl rfl)]
      conv_lhs => rw [← hu]
      rw [show (['\n'] : Str) = List.replicate 1 '\n' from rfl,
        stripTrailNL_trailing v.dropLast hdl_ne hdl_last 1]
      simp [hu]
  · have hE : ensureNL v = v ++ ['\n'] := by
      rw [ensureNL, if_neg (by
        rw [getLast?_charAt v hv]
        intro hcontra
        exact h1 (by simpa using hcontra))]
    have hmk : markerOf v = "|-".data := by
      rw [markerOf, if_neg (by simp [h1]), if_neg h1]
    rw [hmk, hE, applyBlockPolicy,
      if_pos (show ("|-".data = "|".data ∨ "|-".data = "|-".data) from Or.inr rfl)]
    rw [show (['\n'] : Str) = List.replicate 1 '\n' from rfl,
      stripTrailNL_trailing v hv (by
        rw [getLast?_charAt v hv]
        intro hcontra
        exact h1 (by simpa using hcontra)) 1]
    have hne2 : ¬("|-".data = "|".data) := by decide
    simp [hne2]

/-! ### The emission as its list of lines -/

theorem foldr_prefix_append (ls : List Str) (i : Str) :
    ls.foldr (fun x r => ('\n' :: x) ++ r) i
      = ls.foldr (fun x r => ('\n' :: x) ++ r) [] ++ i := by
  induction ls with
  | nil => rfl
  | cons a ls ih => rw [List.foldr_cons, List.foldr_cons, ih, List.append_assoc]

theorem joinLines_append (ls1 ls2 : List Str) (h : ls1 ≠ []) :
    joinLines (ls1 ++ ls2)
      = joinLines ls1 ++ ls2.foldr (fun x r => ('\n' :: x) ++ r) [] := by
  match ls1, h with
  | a :: ls1, _ =>
    rw [List.cons_append, joinLines, joinLines, List.foldr_append,
      foldr_prefix_append ls1 (ls2.foldr (fun x r => ('\n' :: x) ++ r) [])]
    simp

theorem foldr_prefix_cons (a : Str) (L : List Str) :
    (a :: L).foldr (fun x r => ('\n' :: x) ++ r) [] = '\n' :: joinLines (a :: L) := by
  rw [List.foldr_cons, joinLines]
  simp

theorem emitOwn_lines (t v s0 : Str) (nl u : Bool) (cs : OForest) (d : Nat)
    (hEm : EmittableN (.mk t v s0 nl u cs) = true) :
    emitOwn (.mk t v s0 nl u cs) d
      = some (joinLines ((emitIndent d ++ bodyOf (.mk t v s0 nl u cs)) ::
          (if isMulti (.mk t v s0 nl u cs) then vlinesOf v d else []))) := by
  obtain ⟨htag, hval, hmul, _, _⟩ := EmittableN_parts t v s0 nl u cs hEm
  cases nl with
  | true =>
    have hv0 : v = [] := by simpa using hval
    subst hv0
    simp [emitOwn, bodyOf, isMulti, hasValue, joinLines]
  | false =>
    have hvOK : valOK v = true := by simpa using hval
    by_cases hv : v = []
    · subst hv
      simp [emitOwn, bodyOf, isMulti, hasValue, joinLines]
    · by_cases hm : '\n' ∈ v
      · have hlen : 2 ≤ v.length := by
          rw [valOK, if_neg hv, if_pos hm] at hvOK
          simpa using hvOK
        have hnlt : ¬(v.length < 2) := by omega
        by_cases h1 : charAt v (v.length - 1) = '\n' <;>
          by_cases h2 : charAt v (v.length - 2) = '\n' <;>
          simp [emitOwn, bodyOf, markerOf, isMulti, hasValue, vlinesOf, joinLines,
            hv, hm, hnlt, h1, h2, List.foldr_map]
      · simp [emitOwn, bodyOf, isMulti, hasValue, joinLines, hv, hm]

theorem emit_lines : ∀ (f : OForest) (d : Nat), EmittableF f = true →
    emitKids f (d : Int) true
        = some ((forestLines f d).foldr (fun x r => ('\n' :: x) ++ r) []) ∧
      emitKids f (d : Int) false = some (joinLines (forestLines f d))
  | .nil, d, _ => by
    constructor <;> rfl
  | .cons (.mk t v s0 nl u cc) cs, d, h => by
    have h2 : (EmittableN (.mk t v s0 nl u cc) && EmittableF cs) = true := by
      simpa [EmittableF_cons] using h
    simp only [Bool.and_eq_true] at h2
    obtain ⟨hN, hFcs⟩ := h2
    have hFcc : EmittableF cc = true := (EmittableN_parts t v s0 nl u cc hN).2.2.2.2
    have hccT := (emit_lines cc (d + 1) hFcc).1
    have hcsT := (emit_lines cs d hFcs).1
    have hd0 : (0 : Int) ≤ (d : Int) := Int.natCast_nonneg d
    have hcast : ((d : Int) + 1) = ((d + 1 : Nat) : Int) := by push_cast; ring
    have hown := emitOwn_lines t v s0 nl u cc d hN
    have htl : treeLines (.mk t v s0 nl u cc) d
        = (emitIndent d ++ bodyOf (.mk t v s0 nl u cc)) ::
          ((if isMulti (.mk t v s0 nl u cc) then vlinesOf v d else [])
            ++ forestLines cc (d + 1)) := treeLines_mk t v s0 nl u cc d
    have hnode : emitNode (.mk t v s0 nl u cc) (d : Int)
        = some (joinLines (treeLines (.mk t v s0 nl u cc) d)) := by
      simp only [emitNode, if_pos hd0, Int.toNat_natCast, hown, hcast, hccT,
        decide_eq_true hd0, Option.bind_eq_bind, Option.some_bind,
        Option.some.injEq]
      rw [htl, show ((emitIndent d ++ bodyOf (.mk t v s0 nl u cc)) ::
          ((if isMulti (.mk t v s0 nl u cc) then vlinesOf v d else [])
            ++ forestLines cc (d + 1)))
        = ((emitIndent d ++ bodyOf (.mk t v s0 nl u cc)) ::
            (if isMulti (.mk t v s0 nl u cc) then vlinesOf v d else []))
          ++ forestLines cc (d + 1) from by simp]
      rw [joinLines_append _ _ (by simp)]
    constructor
    · simp only [emitKids, hnode, hcsT, Option.bind_eq_bind, Option.some_bind,
        Option.some.injEq]
      rw [forestLines_cons, List.foldr_append, htl]
      rw [foldr_prefix_append ((emitIndent d ++ bodyOf (ONode.mk t v s0 nl u cc)) ::
          ((if isMulti (ONode.mk t v s0 nl u cc) then vlinesOf v d else [])
            ++ forestLines cc (d + 1)))
        (List.foldr (fun x r => ('\n' :: x) ++ r) [] (forestLines cs d))]
      rw [foldr_prefix_cons]
      simp
    · simp only [emitKids, hnode, hcsT, Option.bind_eq_bind, Option.some_bind,
        Option.some.injEq]
      rw [forestLines_cons, joinLines_append (treeLines (ONode.mk t v s0 nl u cc) d)
        (forestLines cs d) (by rw [htl]; simp)]
      simp

theorem emitDoc_lines (rt rv rs : Str) (rn ru : Bool) (F : OForest)
    (hF : EmittableF F = true) :
    emitDoc (.mk rt rv rs rn ru F) = some (joinLines (forestLines F 0)) := by
  have h := (emit_lines F 0 hF).2
  have hneg : ¬((0 : Int) ≤ -1) := by decide
  rw [emitDoc]
  simp only [emitNode, if_neg hneg, decide_eq_false hneg,
    show (-1 : Int) + 1 = ((0 : Nat) : Int) by decide,
    h, Option.bind_eq_bind, Option.some_bind, Option.some.injEq]
  simp

/-! ### One emitted node consumed by one `parseLine` call -/

theorem finishNode_eq (tag value : Str) (dots : Option Nat) (nLine : Nat)
    (node P : ONode) (K : List ONode) (rem : List Str) (eo : Bool)
    (lno cd : Nat) (ds : Str) (St : List PCtx) (pv : Option Nat)
    (hnode : ONode.mk tag (if value = "~".data then [] else value)
        (ds ++ ':' :: natStr nLine) (decide (value = "~".data)) dots.isSome .nil
      = node)
    (hfm : hasTag node = false ∨ firstMatchIdx K node = none) :
    finishNode tag value dots nLine
      { remaining := rem, eof := eo, lineNo := lno, curDepth := cd, docSrc := ds,
        focus := some (P.setKids K), stack := St, prev := pv }
      = .ok { remaining := rem, eof := eo, lineNo := lno, curDepth := cd,
              docSrc := ds, focus := some (P.setKids (K ++ [node])),
              stack := St, prev := some K.length } := by
  rw [finishNode]
  dsimp only
  rw [hnode, ONode.kids_setKids, addChildIdx_append K node hfm,
    ONode.setKids_setKids]

theorem node_step (t v s0 : Str) (nl u : Bool) (cc : OForest) (d : Nat)
    (P : ONode) (K : List ONode) (S : List PCtx) (AFTER : List Str) (s : PState)
    (hEm : EmittableN (ONode.mk t v s0 nl u cc) = true)
    (hrem : s.remaining = treeLines (ONode.mk t v s0 nl u cc) d ++ AFTER)
    (heof : s.eof = false)
    (hstop : isMulti (ONode.mk t v s0 nl u cc) = true → stopOK d AFTER)
    (hadd : ¬(t = []) → ∀ b ∈ K,
      (decide (b.tag = t) && (b.uniq || imgUniqC t v nl u)) = false)
    (hE : ready (P.setKids K) S d s ∨
      (d = s.curDepth + 1 ∧
        descendPrev s = .ok { s with focus := some (P.setKids K), stack := S })) :
    parseRun s = parseRun
      { remaining := forestLines cc (d + 1) ++ AFTER,
        eof := (forestLines cc (d + 1) ++ AFTER).isEmpty,
        lineNo := s.lineNo + 1 + vcount v,
        curDepth := d, docSrc := s.docSrc,
        focus := some (P.setKids (K ++
          [ONode.mk t v (s.docSrc ++ ':' :: natStr (s.lineNo + 1)) nl
            (imgUniqC t v nl u) .nil])),
        stack := S, prev := some K.length } := by
  obtain ⟨htag, hval, hmul, _, _⟩ := EmittableN_parts t v s0 nl u cc hEm
  obtain ⟨c1, c2, c3, c4, c5, _⟩ := bodyOf_clean t v s0 nl u cc hEm
  have hct : ctrim (emitIndent d ++ bodyOf (ONode.mk t v s0 nl u cc))
      = bodyOf (ONode.mk t v s0 nl u cc) := by
    rw [emitIndent, ctrim_replicate_space, c4]
  have hfm_tagged : ¬(t = []) →
      hasTag (ONode.mk t v (s.docSrc ++ ':' :: natStr (s.lineNo + 1)) nl
        (imgUniqC t v nl u) .nil) = false ∨
      firstMatchIdx K (ONode.mk t v (s.docSrc ++ ':' :: natStr (s.lineNo + 1)) nl
        (imgUniqC t v nl u) .nil) = none := by
    intro ht
    right
    refine firstMatchIdx_none K _ ?_
    intro b hb
    simpa using hadd ht b hb
  have hfm_dash :
      hasTag (ONode.mk [] v (s.docSrc ++ ':' :: natStr (s.lineNo + 1)) nl
        (imgUniqC [] v nl u) .nil) = false ∨
      firstMatchIdx K (ONode.mk [] v (s.docSrc ++ ':' :: natStr (s.lineNo + 1)) nl
        (imgUniqC [] v nl u) .nil) = none := by
    left
    simp [hasTag]
  apply parseRun_step_ok s _ heof
  rw [hrem, treeLines_mk]
  simp only [List.cons_append, getNext]
  rw [parseLine]
  dsimp only
  rw [ownLine_depth d s.curDepth (bodyOf (ONode.mk t v s0 nl u cc)) s.docSrc
    (s.lineNo + 1) c1 c2 c3]
  dsimp only
  rw [hct, if_neg c3, if_neg c5]
  rw [dTrans_entry d (P.setKids K) S s _ _ _ hE]
  dsimp only
  rw [parseNode]
  dsimp only
  by_cases ht : t = []
  · subst ht
    cases nl with
    | true =>
      have hv0 : v = [] := by simpa using hval
      subst hv0
      rw [bodyOf_d_nul [] s0 u cc, splitTagVal_dash ['~'] (by decide)]
      dsimp only
      rw [if_neg (by decide)]
      refine (finishNode_eq _ _ _ _
        (ONode.mk [] [] (s.docSrc ++ ':' :: natStr (s.lineNo + 1)) true
          (imgUniqC [] [] true u) .nil) P K _ _ _ _ _ _ _ ?_ ?_).trans ?_
      · simp [imgUniqC, List.findIdx?]
      · exact hfm_dash
      · simp [isMulti, hasValue, vcount]
    | false =>
      have hvOK : valOK v = true := by simpa using hval
      by_cases hv : v = []
      · subst hv
        rw [bodyOf_d_bare s0 u cc, splitTagVal_dash_only]
        dsimp only
        rw [if_neg (by decide)]
        refine (finishNode_eq _ _ _ _
          (ONode.mk [] [] (s.docSrc ++ ':' :: natStr (s.lineNo + 1)) false
            (imgUniqC [] [] false u) .nil) P K _ _ _ _ _ _ _ ?_ ?_).trans ?_
        · simp [imgUniqC, List.findIdx?]
        · exact hfm_dash
        · simp [isMulti, hasValue, vcount]
      · by_cases hm : '\n' ∈ v
        · have hccnil : cc = .nil := hmul hm
          subst hccnil
          have hlen : 2 ≤ v.length := by
            rw [valOK, if_neg hv, if_pos hm] at hvOK
            simpa using hvOK
          have hmulti : isMulti (ONode.mk [] v s0 false u OForest.nil) = true := by
            simp [isMulti, hasValue, hv, hm]
          have hmtrim : ctrim (markerOf v) = markerOf v := by
            rcases markerOf_cases v with h | h | h <;> rw [h] <;> decide
          have hguard : markerOf v = "|".data ∨ markerOf v = "|-".data ∨
              markerOf v = "|+".data := by
            rcases markerOf_cases v with h | h | h
            exacts [Or.inr (Or.inr h), Or.inl h, Or.inr (Or.inl h)]
          have hVne : ¬(v = "~".data) := by
            intro h0
            rw [h0] at hm
            exact absurd hm (by decide)
          rw [bodyOf_d_multi v s0 u .nil hv hm, splitTagVal_dash (markerOf v) hmtrim]
          dsimp only
          rw [if_pos hguard]
          rw [show ((if isMulti (ONode.mk [] v s0 false u OForest.nil) = true
              then vlinesOf v d else []) ++ forestLines .nil (d + 1)) ++ AFTER
              = vlinesOf v d ++ AFTER from by
            rw [if_pos hmulti, forestLines_nil, List.append_nil]]
          match AFTER, hstop hmulti with
          | [], _ =>
            rw [List.append_nil]
            rw [collectBlock_eos s.docSrc d (vlinesOf v d) (s.lineNo + 1) []
              ((vlinesOf v d).length + 1) (vlines_deep v d)
              (by
                rw [vlinesOf]
                simp only [ne_eq, List.map_eq_nil_iff]
                exact vsegs_ne_nil v hv)
              (by omega)]
            dsimp only
            rw [List.nil_append, blockText_vlines v d hv, policy_marker v hm hlen]
            dsimp only
            refine (finishNode_eq _ _ _ _
              (ONode.mk [] v (s.docSrc ++ ':' :: natStr (s.lineNo + 1)) false
                (imgUniqC [] v false u) .nil) P K _ _ _ _ _ _ _ ?_ ?_).trans ?_
            · rw [dots_dash (markerOf v)]
              simp only [if_neg hVne]
              have hmc : decide (':' ∈ markerOf v) = false := by
                rcases markerOf_cases v with h | h | h <;> rw [h] <;> decide
              rw [hmc]
              simp [imgUniqC, hv, hm]
              intro h0
              subst h0
              exact absurd hm (by decide)
            · exact hfm_dash
            · have hvl : (vlinesOf v d).length = vcount v := by
                rw [vlinesOf, List.length_map, vcount, if_pos hm]
              simp [forestLines_nil, hvl]
          | stop :: rest0, hstop2 =>
            rw [collectBlock_stop s.docSrc d (vlinesOf v d) stop rest0
              (s.lineNo + 1) [] ((vlinesOf v d ++ stop :: rest0).length + 1)
              (vlines_deep v d) hstop2
              (by simp only [List.length_append]; omega)]
            dsimp only
            rw [List.nil_append, blockText_vlines v d hv, policy_marker v hm hlen]
            dsimp only
            refine (finishNode_eq _ _ _ _
              (ONode.mk [] v (s.docSrc ++ ':' :: natStr (s.lineNo + 1)) false
                (imgUniqC [] v false u) .nil) P K _ _ _ _ _ _ _ ?_ ?_).trans ?_
            · rw [dots_dash (markerOf v)]
              simp only [if_neg hVne]
              have hmc : decide (':' ∈ markerOf v) = false := by
                rcases markerOf_cases v with h | h | h <;> rw [h] <;> decide
              rw [hmc]
              simp [imgUniqC, hv, hm]
              intro h0
              subst h0
              exact absurd hm (by decide)
            · exact hfm_dash
            · have hvl : (vlinesOf v d).length = vcount v := by
                rw [vlinesOf, List.length_map, vcount, if_pos hm]
              simp [forestLines_nil, hvl]
        · obtain ⟨q1, q2, q3, q4, q5, q6⟩ := valOK_props v hvOK hv hm
          have hvv : ctrim v = v := ctrim_eq_self v hv q1 q2
          rw [bodyOf_d_val v s0 u cc hv hm, splitTagVal_dash v hvv]
          dsimp only
          rw [if_neg (by
            intro hcontra
            rcases hcontra with h | h | h
            exacts [q4 h, q5 h, q6 h])]
          refine (finishNode_eq _ _ _ _
            (ONode.mk [] v (s.docSrc ++ ':' :: natStr (s.lineNo + 1)) false
              (imgUniqC [] v false u) .nil) P K _ _ _ _ _ _ _ ?_ ?_).trans ?_
          · rw [dots_dash v]
            simp [imgUniqC, hv, hm, q3]
          · exact hfm_dash
          · simp [isMulti, hasValue, hm, vcount]
  · obtain ⟨p1, p2, p3, p4, p5, p6⟩ := tagOK_props t htag ht
    have hctt : ctrim t = t := ctrim_eq_self t ht p1 p2
    cases nl with
    | true =>
      have hv0 : v = [] := by simpa using hval
      subst hv0
      rw [bodyOf_t_nul t [] s0 u cc ht,
        splitTagVal_tagged_val t ['~'] ht p5 p3 hctt (by decide)]
      dsimp only
      rw [if_neg (by decide)]
      refine (finishNode_eq _ _ _ _
        (ONode.mk t [] (s.docSrc ++ ':' :: natStr (s.lineNo + 1)) true
          (imgUniqC t [] true u) .nil) P K _ _ _ _ _ _ _ ?_ ?_).trans ?_
      · rw [findIdx?_colon_append t (' ' :: ['~']) p3]
        simp [imgUniqC, ht]
      · exact hfm_tagged ht
      · simp [isMulti, hasValue, vcount]
    | false =>
      have hvOK : valOK v = true := by simpa using hval
      by_cases hv : v = []
      · subst hv
        cases u with
        | true =>
          rw [bodyOf_t_uniq t s0 cc ht,
            show t ++ [':'] = t ++ ':' :: ([] : Str) from rfl,
            splitTagVal_tagged_colon t ht p5 p3 hctt]
          dsimp only
          rw [if_neg (by decide)]
          refine (finishNode_eq _ _ _ _
            (ONode.mk t [] (s.docSrc ++ ':' :: natStr (s.lineNo + 1)) false
              (imgUniqC t [] false true) .nil) P K _ _ _ _ _ _ _ ?_ ?_).trans ?_
          · rw [findIdx?_colon_append t [] p3]
            simp [imgUniqC, ht]
          · exact hfm_tagged ht
          · simp [isMulti, hasValue, vcount]
        | false =>
          rw [bodyOf_t_bare t s0 cc ht, splitTagVal_tag_only t ht p5 p3 hctt]
          dsimp only
          rw [if_neg (by decide)]
          refine (finishNode_eq _ _ _ _
            (ONode.mk t [] (s.docSrc ++ ':' :: natStr (s.lineNo + 1)) false
              (imgUniqC t [] false false) .nil) P K _ _ _ _ _ _ _ ?_ ?_).trans ?_
          · rw [findIdx?_colon_none t p3]
            simp [imgUniqC, ht]
          · exact hfm_tagged ht
          · simp [isMulti, hasValue, vcount]
      · by_cases hm : '\n' ∈ v
        · have hccnil : cc = .nil := hmul hm
          subst hccnil
          have hlen : 2 ≤ v.length := by
            rw [valOK, if_neg hv, if_pos hm] at hvOK
            simpa using hvOK
          have hmulti : isMulti (ONode.mk t v s0 false u OForest.nil) = true := by
            simp [isMulti, hasValue, hv, hm]
          have hmtrim : ctrim (markerOf v) = markerOf v := by
            rcases markerOf_cases v with h | h | h <;> rw [h] <;> decide
          have hguard : markerOf v = "|".data ∨ markerOf v = "|-".data ∨
              markerOf v = "|+".data := by
            rcases markerOf_cases v with h | h | h
            exacts [Or.inr (Or.inr h), Or.inl h, Or.inr (Or.inl h)]
          have hVne : ¬(v = "~".data) := by
            intro h0
            rw [h0] at hm
            exact absurd hm (by decide)
          rw [bodyOf_t_multi t v s0 u .nil ht hv hm,
            splitTagVal_tagged_val t (markerOf v) ht p5 p3 hctt hmtrim]
          dsimp only
          rw [if_pos hguard]
          rw [show ((if isMulti (ONode.mk t v s0 false u OForest.nil) = true
              then vlinesOf v d else []) ++ forestLines .nil (d + 1)) ++ AFTER
              = vlinesOf v d ++ AFTER from by
            rw [if_pos hmulti, forestLines_nil, List.append_nil]]
          match AFTER, hstop hmulti with
          | [], _ =>
            rw [List.append_nil]
            rw [collectBlock_eos s.docSrc d (vlinesOf v d) (s.lineNo + 1) []
              ((vlinesOf v d).length + 1) (vlines_deep v d)
              (by
                rw [vlinesOf]
                simp only [ne_eq, List.map_eq_nil_iff]
                exact vsegs_ne_nil v hv)
              (by omega)]
            dsimp only
            rw [List.nil_append, blockText_vlines v d hv, policy_marker v hm hlen]
            dsimp only
            refine (finishNode_eq _ _ _ _
              (ONode.mk t v (s.docSrc ++ ':' :: natStr (s.lineNo + 1)) false
                (imgUniqC t v false u) .nil) P K _ _ _ _ _ _ _ ?_ ?_).trans ?_
            · rw [findIdx?_colon_append t (' ' :: markerOf v) p3]
              simp only [if_neg hVne]
              simp [imgUniqC, ht, hv]
              intro h0
              subst h0
              exact absurd hm (by decide)
            · exact hfm_tagged ht
            · have hvl : (vlinesOf v d).length = vcount v := by
                rw [vlinesOf, List.length_map, vcount, if_pos hm]
              simp [forestLines_nil, hvl]
          | stop :: rest0, hstop2 =>
            rw [collectBlock_stop s.docSrc d (vlinesOf v d) stop rest0
              (s.lineNo + 1) [] ((vlinesOf v d ++ stop :: rest0).length + 1)
              (vlines_deep v d) hstop2
              (by simp only [List.length_append]; omega)]
            dsimp only
            rw [List.nil_append, blockText_vlines v d hv, policy_marker v hm hlen]
            dsimp only
            refine (finishNode_eq _ _ _ _
              (ONode.mk t v (s.docSrc ++ ':' :: natStr (s.lineNo + 1)) false
                (imgUniqC t v false u) .nil) P K _ _ _ _ _ _ _ ?_ ?_).trans ?_
            · rw [findIdx?_colon_append t (' ' :: markerOf v) p3]
              simp only [if_neg hVne]
              simp [imgUniqC, ht, hv]
              intro h0
              subst h0
              exact absurd hm (by decide)
            · exact hfm_tagged ht
            · have hvl : (vlinesOf v d).length = vcount v := by
                rw [vlinesOf, List.length_map, vcount, if_pos hm]
              simp [forestLines_nil, hvl]
        · obtain ⟨q1, q2, q3, q4, q5, q6⟩ := valOK_props v hvOK hv hm
          have hvv : ctrim v = v := ctrim_eq_self v hv q1 q2
          rw [bodyOf_t_val t v s0 u cc ht hv hm,
            splitTagVal_tagged_val t v ht p5 p3 hctt hvv]
          dsimp only
          rw [if_neg (by
            intro hcontra
            rcases hcontra with h | h | h
            exacts [q4 h, q5 h, q6 h])]
          refine (finishNode_eq _ _ _ _
            (ONode.mk t v (s.docSrc ++ ':' :: natStr (s.lineNo + 1)) false
              (imgUniqC t v false u) .nil) P K _ _ _ _ _ _ _ ?_ ?_).trans ?_
          · rw [findIdx?_colon_append t (' ' :: v) p3]
            simp only [if_neg q3]
            simp [imgUniqC, ht, hv, q3]
          · exact hfm_tagged ht
          · simp [isMulti, hasValue, hm, vcount]

theorem rimgL_nil (sr : Str) (ln : Nat) : rimgL sr ln [] = [] := rfl

theorem rimgL_cons (sr : Str) (ln : Nat) (c : ONode) (cs : List ONode) :
    rimgL sr ln (c :: cs) = rimg sr ln c :: rimgL sr (ln + lineCount c) cs := rfl

theorem rimgF_ofList : ∀ (f : OForest) (sr : Str) (ln : Nat),
    OForest.ofList (rimgL sr ln f.toList) = rimgF sr ln f
  | .nil, sr, ln => rfl
  | .cons c cs, sr, ln => by
    rw [OForest.toList_cons, rimgL_cons, OForest.ofList_cons, rimgF_cons,
      rimgF_ofList cs sr (ln + lineCount c)]

theorem parse_forestLines : ∀ (f : OForest) (d : Nat) (P : ONode) (K : List ONode)
    (S : List PCtx) (suffix : List Str) (s : PState),
    EmittableF f = true →
    sibsOK f.toList = true →
    (∀ c ∈ f.toList, hasTag c = true → ∀ b ∈ K,
      (decide (b.tag = c.tag) &&
        (b.uniq || imgUniqC c.tag c.val c.nul c.uniq)) = false) →
    s.remaining = forestLines f d ++ suffix →
    s.eof = s.remaining.isEmpty →
    stopOK d suffix →
    (ready (P.setKids K) S d s ∨
      (f ≠ .nil ∧ d = s.curDepth + 1 ∧
        descendPrev s = .ok { s with focus := some (P.setKids K), stack := S })) →
    ∃ s2, parseRun s = parseRun s2 ∧
      s2.remaining = suffix ∧ s2.eof = suffix.isEmpty ∧
      s2.lineNo = s.lineNo + lineCountF f ∧ s2.docSrc = s.docSrc ∧
      ready (P.setKids (K ++ rimgL s.docSrc (s.lineNo + 1) f.toList)) S d s2
  | .nil, d, P, K, S, suffix, s, hEf, hS, hadd, hrem, heof, hstop, hE => by
    rcases hE with hR | ⟨hne, _⟩
    · refine ⟨s, rfl, ?_, ?_, ?_, rfl, ?_⟩
      · rw [hrem, forestLines_nil, List.nil_append]
      · rw [heof, hrem, forestLines_nil, List.nil_append]
      · rw [lineCountF_nil]
        omega
      · rw [OForest.toList_nil, rimgL_nil, List.append_nil]
        exact hR
    · exact absurd rfl hne
  | .cons (.mk t v s0 nl u cc) cs, d, P, K, S, suffix, s, hEf, hS, hadd, hrem,
      heof, hstop, hE => by
    have h2 : (EmittableN (.mk t v s0 nl u cc) && EmittableF cs) = true := by
      simpa [EmittableF_cons] using hEf
    simp only [Bool.and_eq_true] at h2
    obtain ⟨hN, hFcs⟩ := h2
    obtain ⟨_, _, hmul, hsibcc, hFcc⟩ := EmittableN_parts t v s0 nl u cc hN
    rw [OForest.toList_cons] at hS hadd
    have hSparts : (∀ b ∈ cs.toList, clashes (ONode.mk t v s0 nl u cc) b = false)
        ∧ sibsOK cs.toList = true := by
      rw [sibsOK] at hS
      simp only [Bool.and_eq_true, List.all_eq_true, Bool.not_eq_true'] at hS
      exact hS
    have hclash : ∀ c' ∈ cs.toList, hasTag c' = true →
        (decide (t = c'.tag) &&
          (imgUniqC t v nl u ||
            imgUniqC c'.tag c'.val c'.nul c'.uniq)) = false := by
      intro c' hc' ht'
      by_cases he : t = c'.tag
      · have htne : ¬(t = []) := by
          rw [he]
          simpa [hasTag] using ht'
        have hcl := hSparts.1 c' hc'
        rw [clashes] at hcl
        simp only [ONode.tag_mk, ONode.val_mk, ONode.nul_mk, ONode.uniq_mk] at hcl
        rw [decide_eq_true he, decide_eq_true (show t ≠ [] from htne)] at hcl
        simp only [Bool.true_and] at hcl
        rw [decide_eq_true he, hcl]
        simp
      · simp [he]
    have heof2 : s.eof = false := by
      rw [heof, hrem, forestLines_cons, treeLines_mk]
      rfl
    have hstep := node_step t v s0 nl u cc d P K S (forestLines cs d ++ suffix) s
      hN (by rw [hrem, forestLines_cons, List.append_assoc]) heof2
      (fun _ => stopOK_forest cs d suffix hFcs hstop)
      (fun ht => by
        have := hadd (ONode.mk t v s0 nl u cc) (by simp) (by simp [hasTag, ht])
        simpa using this)
      (by
        rcases hE with hR | ⟨_, h1a, h2a⟩
        · exact Or.inl hR
        · exact Or.inr ⟨h1a, h2a⟩)
    by_cases hccn : cc = OForest.nil
    · subst hccn
      have hrec := parse_forestLines cs d P
        (K ++ [ONode.mk t v (s.docSrc ++ ':' :: natStr (s.lineNo + 1)) nl
          (imgUniqC t v nl u) .nil]) S suffix
        { remaining := forestLines OForest.nil (d + 1) ++ (forestLines cs d ++ suffix),
          eof := (forestLines OForest.nil (d + 1) ++ (forestLines cs d ++ suffix)).isEmpty,
          lineNo := s.lineNo + 1 + vcount v,
          curDepth := d, docSrc := s.docSrc,
          focus := some (P.setKids (K ++
            [ONode.mk t v (s.docSrc ++ ':' :: natStr (s.lineNo + 1)) nl
              (imgUniqC t v nl u) .nil])),
          stack := S, prev := some K.length }
        hFcs hSparts.2
        (by
          intro c' hc' ht' b hb
          rcases List.mem_append.mp hb with hb | hb
          · exact hadd c' (by simp [hc']) ht' b hb
          · rw [List.mem_singleton] at hb
            subst hb
            simpa using hclash c' hc' ht')
        (by simp [forestLines_nil])
        rfl
        hstop
        (Or.inl ⟨Nat.le_refl d, by simp [ascendSteps]⟩)
      obtain ⟨s2, hrun2, hr2, he2, hl2, hd2, hready2⟩ := hrec
      dsimp only at hl2 hd2 hready2
      refine ⟨s2, hstep.trans hrun2, hr2, he2, ?_, hd2, ?_⟩
      · rw [hl2, lineCountF_cons, lineCount_mk, lineCountF_nil]
        omega
      · rw [OForest.toList_cons, rimgL_cons, rimg_mk, rimgF_nil, lineCount_mk,
          lineCountF_nil]
        rw [show s.lineNo + 1 + (1 + vcount v + 0) = s.lineNo + 1 + vcount v + 1
          from by omega]
        rw [show K ++ ONode.mk t v (s.docSrc ++ ':' :: natStr (s.lineNo + 1)) nl
            (imgUniqC t v nl u) OForest.nil ::
            rimgL s.docSrc (s.lineNo + 1 + vcount v + 1) cs.toList
          = (K ++ [ONode.mk t v (s.docSrc ++ ':' :: natStr (s.lineNo + 1)) nl
              (imgUniqC t v nl u) OForest.nil]) ++
            rimgL s.docSrc (s.lineNo + 1 + vcount v + 1) cs.toList
          from by simp]
        exact hready2
    · have hvnl : ¬('\n' ∈ v) := by
        intro hmem
        exact hccn (hmul hmem)
      have hvz : vcount v = 0 := by rw [vcount, if_neg hvnl]
      have hdesc : descendPrev
          { remaining := forestLines cc (d + 1) ++ (forestLines cs d ++ suffix),
            eof := (forestLines cc (d + 1) ++ (forestLines cs d ++ suffix)).isEmpty,
            lineNo := s.lineNo + 1 + vcount v,
            curDepth := d, docSrc := s.docSrc,
            focus := some (P.setKids (K ++
              [ONode.mk t v (s.docSrc ++ ':' :: natStr (s.lineNo + 1)) nl
                (imgUniqC t v nl u) .nil])),
            stack := S, prev := some K.length }
          = .ok { remaining := forestLines cc (d + 1) ++ (forestLines cs d ++ suffix),
                  eof := (forestLines cc (d + 1) ++ (forestLines cs d ++ suffix)).isEmpty,
                  lineNo := s.lineNo + 1 + vcount v,
                  curDepth := d, docSrc := s.docSrc,
                  focus := some ((ONode.mk t v
                    (s.docSrc ++ ':' :: natStr (s.lineNo + 1)) nl
                    (imgUniqC t v nl u) .nil).setKids []),
                  stack := (⟨P.setKids [], K, []⟩ : PCtx) :: S,
                  prev := some K.length } := by
        rw [descendPrev]
        dsimp only
        rw [ONode.kids_setKids]
        rw [show (K ++ [ONode.mk t v (s.docSrc ++ ':' :: natStr (s.lineNo + 1)) nl
            (imgUniqC t v nl u) .nil]).get? K.length
          = some (ONode.mk t v (s.docSrc ++ ':' :: natStr (s.lineNo + 1)) nl
            (imgUniqC t v nl u) .nil) from get?_concat_self K _]
        dsimp only
        rw [ONode.setKids_setKids, List.take_left, drop_concat_self]
        rw [show (ONode.mk t v (s.docSrc ++ ':' :: natStr (s.lineNo + 1)) nl
            (imgUniqC t v nl u) OForest.nil).setKids []
          = ONode.mk t v (s.docSrc ++ ':' :: natStr (s.lineNo + 1)) nl
            (imgUniqC t v nl u) OForest.nil from by
          rw [ONode.setKids_mk, OForest.ofList_nil]]
      have hrec := parse_forestLines cc (d + 1)
        (ONode.mk t v (s.docSrc ++ ':' :: natStr (s.lineNo + 1)) nl
          (imgUniqC t v nl u) .nil) []
        ((⟨P.setKids [], K, []⟩ : PCtx) :: S) (forestLines cs d ++ suffix)
        { remaining := forestLines cc (d + 1) ++ (forestLines cs d ++ suffix),
          eof := (forestLines cc (d + 1) ++ (forestLines cs d ++ suffix)).isEmpty,
          lineNo := s.lineNo + 1 + vcount v,
          curDepth := d, docSrc := s.docSrc,
          focus := some (P.setKids (K ++
            [ONode.mk t v (s.docSrc ++ ':' :: natStr (s.lineNo + 1)) nl
              (imgUniqC t v nl u) .nil])),
          stack := S, prev := some K.length }
        hFcc hsibcc
        (by intro c' hc' ht' b hb; exact absurd hb (by simp))
        rfl
        rfl
        (stopOK_mono d (d + 1) _ (by omega) (stopOK_forest cs d suffix hFcs hstop))
        (Or.inr ⟨hccn, rfl, by
          rw [show (ONode.mk t v (s.docSrc ++ ':' :: natStr (s.lineNo + 1)) nl
              (imgUniqC t v nl u) OForest.nil).setKids []
            = ONode.mk t v (s.docSrc ++ ':' :: natStr (s.lineNo + 1)) nl
              (imgUniqC t v nl u) OForest.nil from by
            rw [ONode.setKids_mk, OForest.ofList_nil]] at hdesc
          exact hdesc⟩)
      obtain ⟨s2m, hrun2, hr2, he2, hl2, hd2, hready2⟩ := hrec
      dsimp only at hl2 hd2 hready2
      simp only [List.nil_append] at hready2
      have hpop : ready (P.setKids (K ++
          [(ONode.mk t v (s.docSrc ++ ':' :: natStr (s.lineNo + 1)) nl
            (imgUniqC t v nl u) .nil).setKids
              (rimgL s.docSrc (s.lineNo + 1 + vcount v + 1) cc.toList)])) S d s2m := by
        obtain ⟨hd1, ha⟩ := hready2
        refine ⟨by omega, ?_⟩
        have hone : ascendSteps 1
            { s2m with
              focus := some ((ONode.mk t v
                (s.docSrc ++ ':' :: natStr (s.lineNo + 1)) nl
                (imgUniqC t v nl u) .nil).setKids
                  (rimgL s.docSrc (s.lineNo + 1 + vcount v + 1) cc.toList)),
              stack := (⟨P.setKids [], K, []⟩ : PCtx) :: S }
            = .ok { s2m with
                focus := some (P.setKids (K ++
                  [(ONode.mk t v (s.docSrc ++ ':' :: natStr (s.lineNo + 1)) nl
                    (imgUniqC t v nl u) .nil).setKids
                      (rimgL s.docSrc (s.lineNo + 1 + vcount v + 1) cc.toList)])),
                stack := S } := by
          simp only [ascendSteps, closeCtx]
          rw [ONode.setKids_setKids]
        have hcomb := ascendSteps_append (s2m.curDepth - (d + 1)) 1 s2m _ _ ha hone
        rw [show s2m.curDepth - (d + 1) + 1 = s2m.curDepth - d from by omega] at hcomb
        exact hcomb
      have hrec2 := parse_forestLines cs d P
        (K ++ [(ONode.mk t v (s.docSrc ++ ':' :: natStr (s.lineNo + 1)) nl
          (imgUniqC t v nl u) .nil).setKids
            (rimgL s.docSrc (s.lineNo + 1 + vcount v + 1) cc.toList)]) S suffix s2m
        hFcs hSparts.2
        (by
          intro c' hc' ht' b hb
          rcases List.mem_append.mp hb with hb | hb
          · exact hadd c' (by simp [hc']) ht' b hb
          · rw [List.mem_singleton] at hb
            subst hb
            rw [ONode.setKids_mk]
            simpa using hclash c' hc' ht')
        hr2
        (by rw [he2, hr2])
        hstop
        (Or.inl hpop)
      obtain ⟨s2, hrun3, hr3, he3, hl3, hd3, hready3⟩ := hrec2
      refine ⟨s2, (hstep.trans hrun2).trans hrun3, hr3, he3, ?_, ?_, ?_⟩
      · rw [hl3, hl2, lineCountF_cons, lineCount_mk]
        omega
      · rw [hd3, hd2]
      · rw [OForest.toList_cons, rimgL_cons, rimg_mk]
        rw [show s.lineNo + 1 + 1 + vcount v = s.lineNo + 1 + vcount v + 1
          from by omega]
        rw [show s.lineNo + 1 + lineCount (ONode.mk t v s0 nl u cc)
          = s2m.lineNo + 1 from by
            rw [lineCount_mk, hl2]
            omega]
        rw [show rimgL s.docSrc (s2m.lineNo + 1) cs.toList
          = rimgL s2m.docSrc (s2m.lineNo + 1) cs.toList from by
            rw [show s.docSrc = s2m.docSrc from by rw [hd2]]]
        rw [show K ++ ONode.mk t v (s.docSrc ++ ':' :: natStr (s.lineNo + 1)) nl
            (imgUniqC t v nl u)
              (rimgF s.docSrc (s.lineNo + 1 + vcount v + 1) cc) ::
            rimgL s2m.docSrc (s2m.lineNo + 1) cs.toList
          = (K ++ [ONode.mk t v (s.docSrc ++ ':' :: natStr (s.lineNo + 1)) nl
              (imgUniqC t v nl u)
                (rimgF s.docSrc (s.lineNo + 1 + vcount v + 1) cc)]) ++
            rimgL s2m.docSrc (s2m.lineNo + 1) cs.toList from by simp]
        rw [show ONode.mk t v (s.docSrc ++ ':' :: natStr (s.lineNo + 1)) nl
            (imgUniqC t v nl u)
              (rimgF s.docSrc (s.lineNo + 1 + vcount v + 1) cc)
          = (ONode.mk t v (s.docSrc ++ ':' :: natStr (s.lineNo + 1)) nl
              (imgUniqC t v nl u) .nil).setKids
                (rimgL s.docSrc (s.lineNo + 1 + vcount v + 1) cc.toList) from by
            rw [ONode.setKids_mk, rimgF_ofList]]
        exact hready3

/-! ### The reparse image is structurally equivalent to the original -/

theorem StructEq_mk (t1 v1 w1 t2 v2 w2 : Str) (n1 u1 n2 u2 : Bool)
    (c1 c2 : OForest) :
    StructEq (.mk t1 v1 w1 n1 u1 c1) (.mk t2 v2 w2 n2 u2 c2)
      = (t1 = t2 ∧ v1 = v2 ∧ n1 = n2 ∧ ForestEq c1 c2) := rfl

theorem ForestEq_nil_nil : ForestEq .nil .nil = True := rfl

theorem ForestEq_cons_cons (a b : ONode) (l1 l2 : OForest) :
    ForestEq (.cons a l1) (.cons b l2) = (StructEq a b ∧ ForestEq l1 l2) := rfl

theorem ForestEq_rimgF : ∀ (sr : Str) (ln : Nat) (f : OForest),
    ForestEq (rimgF sr ln f) f
  | _, _, .nil => by rw [rimgF_nil, ForestEq_nil_nil]; trivial
  | sr, ln, .cons (.mk t v s0 nl u cc) cs => by
    rw [rimgF_cons, rimg_mk, ForestEq_cons_cons, StructEq_mk]
    exact ⟨⟨rfl, rfl, rfl, ForestEq_rimgF sr (ln + 1 + vcount v) cc⟩,
      ForestEq_rimgF sr (ln + lineCount (.mk t v s0 nl u cc)) cs⟩

/-! ### Claim C1: emit / parse round trip -/

/-- C1 (amended): for every tree whose children forest is emittable —
tags drawn from the characters `parseNode` accepts, written values inside
the range the emitter can protect (no `:` in an inline value, no lone `~`,
multiline values only on leaves), and no two siblings sharing a tag when
one of them is unique — emitting the document and parsing the text back
succeeds and returns exactly the reparse image `rimgF` of the forest,
which is structurally equivalent (`ForestEq`) to the original: same tags,
same values, same null flags, same child order and child count at every
node.  Only the source labels and the recomputed unique flags differ.
The claim read over all trees built through the public operations fails —
see the counterexample, where a written value `"~"` reparses to a null
child — which is why the emittability bound is needed. -/
theorem C1_roundtrip_amended (rt rv rs sr : Str) (rn ru : Bool) (F : OForest)
    (hF : EmittableF F = true) (hS : sibsOK F.toList = true) :
    ∃ text : Str, emitDoc (.mk rt rv rs rn ru F) = some text ∧
      parseDoc text sr = .ok (.mk [] [] sr false false (rimgF sr 1 F)) ∧
      ForestEq (rimgF sr 1 F) F := by
  refine ⟨joinLines (forestLines F 0), emitDoc_lines rt rv rs rn ru F hF, ?_,
    ForestEq_rimgF sr 1 F⟩
  cases F with
  | nil =>
    rw [show joinLines (forestLines OForest.nil 0) = [] from rfl, rimgF_nil]
    have h1 : parseRun (initPState [] sr)
        = parseRun
            { remaining := [], eof := true, lineNo := 1, curDepth := 0,
              docSrc := sr, focus := some (ONode.mk [] [] sr false false .nil),
              stack := [], prev := none } := by
      refine parseRun_step_ok _ _ rfl ?_
      exact parseLine_nil _
    simp only [parseDoc]
    rw [h1, parseRun_eof _ rfl]
    rfl
  | cons c cs =>
    obtain ⟨t, v, s0, nl, u, cc⟩ := c
    have hnoNL := forestLines_noNL (OForest.cons (ONode.mk t v s0 nl u cc) cs) 0 hF
    have hne : forestLines (OForest.cons (ONode.mk t v s0 nl u cc) cs) 0 ≠ [] := by
      rw [forestLines_cons, treeLines_mk]
      simp
    have hsplit : splitLines (joinLines
        (forestLines (OForest.cons (ONode.mk t v s0 nl u cc) cs) 0))
        = forestLines (OForest.cons (ONode.mk t v s0 nl u cc) cs) 0 :=
      splitLines_joinLines _ hne hnoNL
    have hmain := parse_forestLines (OForest.cons (ONode.mk t v s0 nl u cc) cs) 0
      (ONode.mk [] [] sr false false .nil) [] [] []
      (initPState (joinLines
        (forestLines (OForest.cons (ONode.mk t v s0 nl u cc) cs) 0)) sr)
      hF hS
      (fun c' hc' ht' b hb => absurd hb (by simp))
      (by
        show splitLines (joinLines
            (forestLines (OForest.cons (ONode.mk t v s0 nl u cc) cs) 0))
          = forestLines (OForest.cons (ONode.mk t v s0 nl u cc) cs) 0 ++ []
        rw [hsplit, List.append_nil])
      (by
        show false = (splitLines (joinLines
            (forestLines (OForest.cons (ONode.mk t v s0 nl u cc) cs) 0))).isEmpty
        rw [hsplit, forestLines_cons, treeLines_mk]
        rfl)
      trivial
      (Or.inl ⟨Nat.le_refl 0, rfl⟩)
    obtain ⟨s2, hrun, hr2, he2, hl2, hd2, hready⟩ := hmain
    dsimp only [initPState] at hready
    simp only [List.nil_append, Nat.zero_add] at hready
    rw [show ((ONode.mk [] [] sr false false .nil).setKids
        (rimgL sr 1 (OForest.cons (ONode.mk t v s0 nl u cc) cs).toList))
      = ONode.mk [] [] sr false false
          (rimgF sr 1 (OForest.cons (ONode.mk t v s0 nl u cc) cs)) from by
        rw [ONode.setKids_mk, rimgF_ofList]] at hready
    obtain ⟨hd0, ha⟩ := hready
    have hclose := closeAll_of_ascend (s2.curDepth - 0) s2 _ ha
    simp only [parseDoc]
    rw [hrun, parseRun_eof s2 he2]
    dsimp only
    rw [hclose]

/-- C1 counterexample: a tree reached through the public operations —
write a child `a` holding the literal value `~` — emits the line `a: ~`,
and parsing it back yields a null child with empty value.  The parsed tree
is not structurally equivalent to the original: the child's value (`~`
versus empty) and null flag (`false` versus `true`) both change, refuting
the claim as stated. -/
theorem C1_roundtrip_counterexample :
    emitDoc (.mk [] [] "d".data false false
        (.cons (.mk "a".data "~".data "d".data false true .nil) .nil))
      = some "a: ~".data ∧
    parseDoc "a: ~".data "d".data
      = .ok (.mk [] [] "d".data false false
          (.cons (.mk "a".data [] "d:1".data true true .nil) .nil)) ∧
    ¬ StructEq
        (.mk [] [] "d".data false false
          (.cons (.mk "a".data [] "d:1".data true true .nil) .nil))
        (.mk [] [] "d".data false false
          (.cons (.mk "a".data "~".data "d".data false true .nil) .nil)) := by
  refine ⟨by rfl, by rfl, fun h => ?_⟩
  rw [StructEq_mk, ForestEq_cons_cons, StructEq_mk] at h
  exact absurd h.2.2.2.1.2.1 (by decide)

/-- C1 witness: the amended round-trip theorem instantiated at a concrete
emittable forest containing a nested child, a multiline leaf value and a
null sibling, with both side conditions checked by computation. -/
theorem C1_roundtrip_amended_witness :
    EmittableF (OForest.cons (ONode.mk "a".data "1".data [] false true
        (OForest.cons (ONode.mk "b".data "x\ny".data [] false true .nil) .nil))
      (OForest.cons (ONode.mk "c".data [] [] true false .nil) .nil)) = true ∧
    sibsOK (OForest.cons (ONode.mk "a".data "1".data [] false true
        (OForest.cons (ONode.mk "b".data "x\ny".data [] false true .nil) .nil))
      (OForest.cons (ONode.mk "c".data [] [] true false .nil) .nil)).toList
      = true ∧
    (∃ text : Str,
      emitDoc (.mk "doc".data [] [] false false
          (OForest.cons (ONode.mk "a".data "1".data [] false true
              (OForest.cons (ONode.mk "b".data "x\ny".data [] false true .nil)
                .nil))
            (OForest.cons (ONode.mk "c".data [] [] true false .nil) .nil)))
        = some text ∧
      parseDoc text "w".data
        = .ok (.mk [] [] "w".data false false
            (rimgF "w".data 1 (OForest.cons (ONode.mk "a".data "1".data []
                false true (OForest.cons
                  (ONode.mk "b".data "x\ny".data [] false true .nil) .nil))
              (OForest.cons (ONode.mk "c".data [] [] true false .nil) .nil)))) ∧
      ForestEq
        (rimgF "w".data 1 (OForest.cons (ONode.mk "a".data "1".data []
            false true (OForest.cons
              (ONode.mk "b".data "x\ny".data [] false true .nil) .nil))
          (OForest.cons (ONode.mk "c".data [] [] true false .nil) .nil)))
        (OForest.cons (ONode.mk "a".data "1".data [] false true
            (OForest.cons (ONode.mk "b".data "x\ny".data [] false true .nil)
              .nil))
          (OForest.cons (ONode.mk "c".data [] [] true false .nil) .nil))) :=
  ⟨by decide, by decide,
    C1_roundtrip_amended "doc".data [] [] "w".data false false
      (OForest.cons (ONode.mk "a".data "1".data [] false true
          (OForest.cons (ONode.mk "b".data "x\ny".data [] false true .nil) .nil))
        (OForest.cons (ONode.mk "c".data [] [] true false .nil) .nil))
      (by decide) (by decide)⟩
